import Mathlib

/-!
Verification development for the TOML encoder (`toml/encoder.py`).

The Python source is shallowly embedded in Lean:

* Python strings are Lean `String` (a wrapper around `List Char` in this
  toolchain); all character-level operations (`str.replace`, `str.split`,
  `str.strip`, `repr`) are re-implemented here over `List Char` so that every
  theorem can be evaluated by the kernel.
* Python values handled by the encoder are the inductive `PyVal`.  A Python
  `dict` is an insertion-ordered association list; the `InlineTableDict`
  mixin tag of the decoder is modelled as a boolean carried by the `dict`
  constructor (it is a property of the instance, not of the type).
* Fallible code returns `Except EErr _`.  `EErr.outOfFuel` is not a Python
  exception: the source's loops (`while sections`, `while d`, and the
  recursion of `dump_sections`) are not structurally decreasing, so every
  looping function takes an explicit fuel argument; `outOfFuel` marks fuel
  exhaustion, i.e. a run that in Python would either not terminate or die
  with a `RecursionError`.  `typeError`, `valueError` and `indexError`
  model the Python exceptions of the same names.
* Object identity (`id(...)`), on which the circular-reference check of
  `dumps` rests, does not exist for inductive trees.  The check is embedded
  in a second, reference-graph model (`GVal`/`GStore`, functions prefixed
  `g_`) where every dict lives at an explicit address; the tree model
  corresponds to runs on acyclic, unshared object graphs, on which the
  check of the source never fires.
-/

/-- Errors of the embedded code: the Python exceptions raised by the encoder
    (`TypeError`, `ValueError(msg)`, `IndexError`) plus `outOfFuel`, which
    models non-termination / stack exhaustion of the source's unbounded
    loops (see the module docstring). -/
inductive EErr where
  | typeError : EErr
  | valueError : String → EErr
  | indexError : EErr
  | outOfFuel : EErr
deriving DecidableEq, Repr

/-- Python values reaching the encoder.  `dict inline entries` models a dict
    with the given insertion order; `inline = true` models an instance of the
    `InlineTableDict` marker mixin.  `obj r` models a non-iterable object of
    an unregistered type whose `repr` is the string `r` (the tier-3 fallback
    of the dispatcher).  `path`, `enumVal` and `ipv4` model
    `pathlib.PurePath`, `enum.Enum` and `ipaddress.IPv4Address` values, the
    three capability entries of `dump_by_instance`.  Floats, decimals and
    date/time values are outside this embedding (no claim mentions them), so
    the corresponding `dump_by_type` entries are omitted. -/
inductive PyVal where
  | str (s : String)
  | int (n : Int)
  | bool (b : Bool)
  | none
  | list (xs : List PyVal)
  | dict (inline : Bool) (entries : List (String × PyVal))
  | path (s : String)
  | enumVal (v : PyVal)
  | ipv4 (s : String)
  | obj (r : String)
deriving Repr

instance {ε α : Type} [DecidableEq ε] [DecidableEq α] : DecidableEq (Except ε α) := fun x y =>
  match x, y with
  | .ok a, .ok b =>
    if h : a = b then isTrue (by rw [h]) else isFalse (by intro hc; cases hc; exact h rfl)
  | .error a, .error b =>
    if h : a = b then isTrue (by rw [h]) else isFalse (by intro hc; cases hc; exact h rfl)
  | .ok _, .error _ => isFalse (by intro hc; cases hc)
  | .error _, .ok _ => isFalse (by intro hc; cases hc)

/-- Backslash character, used pervasively by `_dump_str`. -/
def bsC : Char := '\\'

/-- Single-quote character (written via its code point to keep apostrophes
    out of the source text). -/
def sqC : Char := Char.ofNat 39

/-- Double-quote character. -/
def dqC : Char := Char.ofNat 34

/-- Lower-case hexadecimal digit, for `repr`'s `\xNN` escapes. -/
def hexDig (n : Nat) : Char :=
  if n < 10 then Char.ofNat (48 + n) else Char.ofNat (87 + n)

/-- Escape of one character inside a Python `repr` literal quoted with `q`.
    Mirrors CPython: the backslash and the chosen quote are
    backslash-escaped, `\n`/`\r`/`\t` use their two-character escapes, other
    control characters (below U+0020, and U+007F) become `\xNN`.  Code
    points the embedding never exercises (non-ASCII unprintables) are kept
    verbatim; the claims only use ASCII. -/
def reprEscChar (q c : Char) : List Char :=
  if c = bsC ∨ c = q then [bsC, c]
  else if c = '\n' then [bsC, 'n']
  else if c = '\r' then [bsC, 'r']
  else if c = '\t' then [bsC, 't']
  else if c.toNat < 32 ∨ c.toNat = 127 then
    [bsC, 'x', hexDig (c.toNat / 16), hexDig (c.toNat % 16)]
  else [c]

/-- Quote character chosen by Python `repr` for a string: a single quote,
    unless the string contains a single quote and no double quote. -/
def reprQuote (l : List Char) : Char :=
  if l.contains sqC ∧ ¬ l.contains dqC then dqC else sqC

/-- Python `repr` of a string (the `"%r" % v` of `_dump_str`), restricted as
    described at `reprEscChar`. -/
def pyRepr (s : String) : String :=
  let q := reprQuote s.data
  String.mk (q :: (s.data.flatMap (reprEscChar q) ++ [q]))

/-- Fuel-indexed `str.replace pat rep`: leftmost, non-overlapping, exactly
    Python's semantics for a non-empty pattern.  Fuel is the length of the
    subject, consumed one character (or one match) at a time, so
    `pyReplace` below never exhausts it. -/
def replaceFuel (pat rep : List Char) : Nat → List Char → List Char
  | 0, s => s
  | _ + 1, [] => []
  | fuel + 1, c :: cs =>
    if pat.isPrefixOf (c :: cs) then
      rep ++ replaceFuel pat rep fuel ((c :: cs).drop pat.length)
    else
      c :: replaceFuel pat rep fuel cs

/-- Python `str.replace` for a non-empty pattern. -/
def pyReplace (s pat rep : String) : String :=
  String.mk (replaceFuel pat.data rep.data s.data.length s.data)

/-- Fuel-indexed worker for `str.split(sep)` (non-empty separator): `cur`
    holds the reversed characters of the part being accumulated. -/
def splitFuel (sep : List Char) : Nat → List Char → List Char → List (List Char)
  | 0, s, cur => [cur.reverse ++ s]
  | fuel + 1, s, cur =>
    if sep.isPrefixOf s then
      cur.reverse :: splitFuel sep fuel (s.drop sep.length) []
    else
      match s with
      | [] => [cur.reverse]
      | c :: cs => splitFuel sep fuel cs (c :: cur)

/-- Python `str.split(sep)` for a non-empty separator: every occurrence
    splits, empty parts included. -/
def pySplit (s sep : String) : List String :=
  (splitFuel sep.data (s.data.length + 1) s.data []).map String.mk

/-- Backward walk of `_dump_str`'s backslash-counting loop, over the
    reversed collapsed prefix.  The source initialises
    `joinx = v[0][i] != BACKSLASH` with `i = -1` and then flips `joinx`
    while `v[0][:i]` is non-empty and `v[0][i]` is a backslash, moving `i`
    down; `v[0][:i]` being non-empty is exactly the current reversed suffix
    having at least two characters, which gives this index-free form.  Note
    the first loop step re-examines the same last character used for the
    initialisation — this is faithful to the source. -/
def flipWalk : List Char → Bool → Bool
  | [], jx => jx
  | [_], jx => jx
  | c :: c2 :: rest, jx =>
    if c = bsC then flipWalk (c2 :: rest) (!jx) else jx

/-- Decision `joinx` of `_dump_str` for a (non-empty) collapsed prefix:
    `true` selects the joiner `"x"`, `false` selects `"u00"`. -/
def pyJoinx (v0 : String) : Bool :=
  match v0.data.reverse with
  | [] => true
  | c :: rest => flipWalk (c :: rest) (c ≠ bsC)

/-- Joiner string chosen from `joinx` (`"x"` re-emits a literal x after the
    collapsed prefix, `"u00"` rewrites the escape to `\u00NN`). -/
def pyJoiner (v0 : String) : String :=
  if pyJoinx v0 then "x" else "u00"

/-- Collapse doubled backslashes: the `v[0].replace(BS BS, BS)` step. -/
def collapseBs (s : String) : String :=
  pyReplace s (String.mk [bsC, bsC]) (String.mk [bsC])

/-- Loop of `_dump_str` over the parts of the split at `\x`.  Each round
    drops at most one empty head part (raising `IndexError` exactly where
    Python would index out of range), collapses doubled backslashes in the
    head, chooses the joiner by backslash parity and fuses the first two
    parts. -/
def dumpStrLoopFuel : Nat → List String → Except EErr String
  | _, [] => .error .indexError
  | _, [v0] => .ok v0
  | 0, _ :: _ :: _ => .error .outOfFuel
  | fuel + 1, v0 :: v1 :: rest =>
    if v0 = "" then
      match rest with
      | [] => .error .indexError
      | v2 :: rest2 =>
        let w0 := collapseBs v1
        if w0 = "" then .error .indexError
        else dumpStrLoopFuel fuel ((w0 ++ pyJoiner w0 ++ v2) :: rest2)
    else
      let w0 := collapseBs v0
      if w0 = "" then .error .indexError
      else dumpStrLoopFuel fuel ((w0 ++ pyJoiner w0 ++ v1) :: rest)

/-- The loop with its fuel instantiated: every round shortens the part list
    by at least one, so the number of parts is always enough fuel and the
    `outOfFuel` branch above is unreachable. -/
def dumpStrLoop (parts : List String) : Except EErr String :=
  dumpStrLoopFuel parts.length parts

/-- Core of `_dump_str` after the textual representation has been taken:
    strip the repr quotes, normalise quoting for single-quoted reprs, split
    at the two-character sequence `\x` and run the parity loop, then wrap in
    double quotes. -/
def dumpStrCore (r : String) : Except EErr String :=
  let singlequote := r.data.head? = some sqC
  let v := if singlequote ∨ r.data.head? = some dqC
           then String.mk (r.data.drop 1).dropLast else r
  let v := if singlequote
           then pyReplace (pyReplace v (String.mk [bsC, sqC]) (String.mk [sqC]))
                  (String.mk [dqC]) (String.mk [bsC, dqC])
           else v
  match dumpStrLoop (pySplit v (String.mk [bsC, 'x'])) with
  | .error e => .error e
  | .ok w => .ok (String.mk (dqC :: (w.data ++ [dqC])))

mutual
/-- Python `repr` of a `PyVal`: what `"%r" % v` yields in `_dump_str` when
    the argument is not a string.  The forms for `path`, `enumVal` and
    `ipv4` model the standard library's reprs; they are unreachable through
    the dispatcher (those types are caught by `dump_by_instance` first). -/
def pyReprVal : PyVal → String
  | .str s => pyRepr s
  | .int n => toString n
  | .bool b => if b then "True" else "False"
  | .none => "None"
  | .obj r => r
  | .path s => "PurePosixPath(" ++ pyRepr s ++ ")"
  | .ipv4 s => "IPv4Address(" ++ pyRepr s ++ ")"
  | .enumVal v => "<Enum: " ++ pyReprVal v ++ ">"
  | .list xs => "[" ++ joinCommaSep (pyReprList xs) ++ "]"
  | .dict _ es => "\x7b" ++ joinCommaSep (pyReprEntries es) ++ "\x7d"

/-- Reprs of the elements of a list value. -/
def pyReprList : List PyVal → List String
  | [] => []
  | v :: vs => pyReprVal v :: pyReprList vs

/-- Reprs of the entries of a dict value. -/
def pyReprEntries : List (String × PyVal) → List String
  | [] => []
  | (k, v) :: es => (pyRepr k ++ ": " ++ pyReprVal v) :: pyReprEntries es

/-- Comma-separated join, as in Python's container reprs. -/
def joinCommaSep : List String → String
  | [] => ""
  | [s] => s
  | s :: s2 :: rest => s ++ ", " ++ joinCommaSep (s2 :: rest)
end

/-- Python `str()` of a `PyVal`.  `path` and `ipv4` stringify to their
    underlying text; strings are themselves; everything else falls back to
    the repr, as CPython does for objects without a dedicated `__str__`. -/
def pyStr : PyVal → String
  | .str s => s
  | .path s => s
  | .ipv4 s => s
  | v => pyReprVal v

/-- Embedding of `_dump_str`: take the textual representation of the value
    and post-process the hexadecimal `\x` escapes. -/
def dump_str (v : PyVal) : Except EErr String :=
  dumpStrCore (pyReprVal v)

/-- Character class of a bare key, `[A-Za-z0-9_-]`. -/
def isBareChar (c : Char) : Bool :=
  (Char.ofNat 65 ≤ c && c ≤ Char.ofNat 90) || (Char.ofNat 97 ≤ c && c ≤ Char.ofNat 122) ||
    (Char.ofNat 48 ≤ c && c ≤ Char.ofNat 57) || c == '_' || c == '-'

/-- Truth of `re.match(r'^[A-Za-z0-9_-]+$', s)`: one or more characters of
    the class; `$` also matches just before one trailing newline, which is
    kept faithfully. -/
def pyBare (s : String) : Bool :=
  let d := if s.data.getLast? = some '\n' then s.data.dropLast else s.data
  decide (d ≠ []) && d.all isBareChar

/-- Key as emitted by `dump_sections`: the key itself when bare, otherwise
    its `_dump_str` escape. -/
def qsection_of (k : String) : Except EErr String :=
  if pyBare k then .ok k else dump_str (.str k)

/-- Encoder configuration: `preserve` is the constructor flag of
    `TomlEncoder`; `sep = some s` models `TomlArraySeparatorEncoder`'s
    overridden `dump_list` with validated separator `s`, `sep = none` the
    base `dump_list`. -/
structure Enc where
  preserve : Bool
  sep : Option String
deriving DecidableEq

/-- Configuration of the plain `TomlEncoder()`. -/
def defaultEnc : Enc := ⟨false, Option.none⟩

/-- Configuration of `TomlPreserveInlineDictEncoder()`. -/
def preserveEnc : Enc := ⟨true, Option.none⟩

/-- Python types distinguished by the exact-type dispatch table (restricted
    to the value kinds of this embedding). -/
inductive PyType where
  | strT | intT | boolT | noneT | listT | dictT | pathT | enumT | ipv4T | objT
deriving DecidableEq, Repr

/-- Exact runtime type of a value, `type(value)`. -/
def typeOf : PyVal → PyType
  | .str _ => .strT
  | .int _ => .intT
  | .bool _ => .boolT
  | .none => .noneT
  | .list _ => .listT
  | .dict _ _ => .dictT
  | .path _ => .pathT
  | .enumVal _ => .enumT
  | .ipv4 _ => .ipv4T
  | .obj _ => .objT

/-- Formatter selected by the dispatcher (a tag for the corresponding
    Python function object). -/
inductive Fmt where
  | fstr | flist | fbool | fint | fpath | fenum | fipv4
deriving DecidableEq, Repr

/-- The value is a `dict` (`isinstance(v, dict)`). -/
def isDictV : PyVal → Bool
  | .dict _ _ => true
  | _ => false

/-- The value carries the `InlineTableDict` marker. -/
def isInlineV : PyVal → Bool
  | .dict i _ => i
  | _ => false

/-- The value is `None`. -/
def isNoneV : PyVal → Bool
  | .none => true
  | _ => false

/-- Capability test `isinstance(v, pathlib.PurePath)`. -/
def isPathV : PyVal → Bool
  | .path _ => true
  | _ => false

/-- Capability test `isinstance(v, enum.Enum)`. -/
def isEnumV : PyVal → Bool
  | .enumVal _ => true
  | _ => false

/-- Capability test `isinstance(v, ipaddress.IPv4Address)`. -/
def isIpv4V : PyVal → Bool
  | .ipv4 _ => true
  | _ => false

/-- Capability test `isinstance(v, collections.abc.Iterable)`: of the
    embedded kinds, strings, lists and dicts are iterable. -/
def isIterableV : PyVal → Bool
  | .str _ => true
  | .list _ => true
  | .dict _ _ => true
  | _ => false

/-- The `dump_by_type` table of `TomlEncoder.__init__`, keyed by exact type.
    The `float`, `Decimal` and `datetime`/`time`/`date` entries of the
    source are omitted together with those value kinds (no claim touches
    them); every embedded kind that has an entry in the source is present. -/
def dump_by_type : List (PyType × Fmt) :=
  [(.strT, .fstr), (.listT, .flist), (.boolT, .fbool), (.intT, .fint)]

/-- The ordered `dump_by_instance` table of `TomlEncoder.__init__`:
    `PurePath`, `Enum`, `IPv4Address`, then `Iterable` (which maps to
    `dump_by_type[list]`, the list formatter). -/
def dump_by_instance : List ((PyVal → Bool) × Fmt) :=
  [(isPathV, .fpath), (isEnumV, .fenum), (isIpv4V, .fipv4), (isIterableV, .flist)]

/-- Lookup in the exact-type table, `self.dump_by_type.get(type(value))`. -/
def typeLookup : List (PyType × Fmt) → PyType → Option Fmt
  | [], _ => Option.none
  | (t, f) :: rest, t0 => if t = t0 then some f else typeLookup rest t0

/-- The instance-check loop of `get_dump_function`, kept in its exact shape:
    the loop body first breaks when a formatter has already been found, then
    tests the current capability and records its formatter on success (so
    the iteration after a match performs the break). -/
def instanceLoop : List ((PyVal → Bool) × Fmt) → Option Fmt → PyVal → Option Fmt
  | [], acc, _ => acc
  | (p, f) :: rest, acc, v =>
    if acc.isSome then acc
    else instanceLoop rest (if p v then some f else acc) v

/-- Embedding of `TomlEncoder.get_dump_function`: exact-type lookup, then
    the instance loop, then the string formatter as final fallback. -/
def get_dump_function (v : PyVal) : Fmt :=
  match instanceLoop dump_by_instance (typeLookup dump_by_type (typeOf v)) v with
  | some f => f
  | Option.none => .fstr

/-- First capability match in registration order.  This and `specResolve`
    are written from the specification's words (resolution order: exact-type
    table, then first satisfied capability test, then string fallback), to
    be compared with `get_dump_function` above. -/
def firstMatch : List ((PyVal → Bool) × Fmt) → PyVal → Option Fmt
  | [], _ => Option.none
  | (p, f) :: rest, v => if p v then some f else firstMatch rest v

/-- Dispatch resolution as the specification words it (see `firstMatch`). -/
def specResolve (v : PyVal) : Fmt :=
  match typeLookup dump_by_type (typeOf v) with
  | some f => f
  | Option.none =>
    match firstMatch dump_by_instance v with
    | some f => f
    | Option.none => .fstr

/-- Elements produced by iterating a value (`for u in v`): a list yields its
    elements, a dict its keys, a string its characters.  Non-iterable values
    never reach the list formatter, so their case is irrelevant. -/
def iterElems : PyVal → List PyVal
  | .list xs => xs
  | .dict _ es => es.map (fun p => PyVal.str p.1)
  | .str s => s.data.map (fun c => PyVal.str (String.mk [c]))
  | _ => []

/-- Attribute access `v.value` of an enum member (identity elsewhere; only
    reached on enums through the dispatcher). -/
def enumValue : PyVal → PyVal
  | .enumVal v => v
  | v => v

/-- Python `str.lower` restricted to ASCII. -/
def lowerStr (s : String) : String :=
  String.mk (s.data.map Char.toLower)

mutual
/-- Embedding of `TomlEncoder.dump_value`: resolve the formatter with
    `get_dump_function` and apply it.  The `int` formatter of the source
    returns the integer object itself, which every call site wraps in
    `str(...)`; it is embedded as that decimal string directly.  Fuel is
    spent on every step of the `dump_value`/`dump_list` recursion (so that
    all definitions are structural in the fuel and evaluate inside the
    kernel); enough fuel makes every `outOfFuel` branch unreachable. -/
def dump_value (cfg : Enc) : Nat → PyVal → Except EErr String
  | 0, _ => .error .outOfFuel
  | fuel + 1, v =>
    match get_dump_function v with
    | .fstr => dump_str v
    | .fint => .ok (pyStr v)
    | .fbool => .ok (lowerStr (pyStr v))
    | .fpath => dump_str (.str (pyStr v))
    | .fipv4 => dump_str (.str (pyStr v))
    | .fenum => dump_str (.str (pyStr (enumValue v)))
    | .flist =>
      match cfg.sep with
      | Option.none => dump_list cfg fuel v
      | some s => sep_dump_list cfg s fuel v

/-- Embedding of the base `TomlEncoder.dump_list`. -/
def dump_list (cfg : Enc) : Nat → PyVal → Except EErr String
  | 0, _ => .error .outOfFuel
  | fuel + 1, v =>
    match dumpListParts cfg fuel (iterElems v) with
    | .error e => .error e
    | .ok body => .ok ("[" ++ body ++ "]")

/-- Body of `dump_list`'s loop: one fragment of the form
    `" " ++ element ++ ","` per element, in order. -/
def dumpListParts (cfg : Enc) : Nat → List PyVal → Except EErr String
  | _, [] => .ok ""
  | 0, _ :: _ => .error .outOfFuel
  | fuel + 1, u :: us =>
    match dump_value cfg fuel u with
    | .error e => .error e
    | .ok s =>
      match dumpListParts cfg fuel us with
      | .error e => .error e
      | .ok r => .ok (" " ++ s ++ "," ++ r)

/-- Embedding of `TomlArraySeparatorEncoder.dump_list`.  In that subclass
    the loop re-flattens elements that are lists, but `dump_value` only ever
    returns strings (the shipped formatters return strings or ints), so the
    flattening branch is dead and the loop runs exactly once, emitting
    `" " ++ element ++ separator` per element. -/
def sep_dump_list (cfg : Enc) (s : String) : Nat → PyVal → Except EErr String
  | 0, _ => .error .outOfFuel
  | fuel + 1, v =>
    match sepListParts cfg s fuel (iterElems v) with
    | .error e => .error e
    | .ok body => .ok ("[" ++ body ++ "]")

/-- Body of the separator variant's emission loop. -/
def sepListParts (cfg : Enc) (s : String) : Nat → List PyVal → Except EErr String
  | _, [] => .ok ""
  | 0, _ :: _ => .error .outOfFuel
  | fuel + 1, u :: us =>
    match dump_value cfg fuel u with
    | .error e => .error e
    | .ok t =>
      match sepListParts cfg s fuel us with
      | .error e => .error e
      | .ok r => .ok (" " ++ t ++ s ++ r)
end

mutual
/-- Embedding of `TomlEncoder.dump_inline_table`: a dict becomes the
    one-line brace construct (with a trailing newline), anything else is
    dumped through `dump_value`. -/
def dump_inline_table (cfg : Enc) (fuel : Nat) : PyVal → Except EErr String
  | .dict _ es =>
    match inlineParts cfg fuel es with
    | .error e => .error e
    | .ok parts => .ok ("\x7b " ++ joinCommaSep parts ++ " \x7d\n")
  | v => dump_value cfg fuel v

/-- Entry fragments `k ++ " = " ++ value` of an inline table.  Note the
    source emits the key verbatim here, without the bare-key check of
    `dump_sections`. -/
def inlineParts (cfg : Enc) (fuel : Nat) : List (String × PyVal) → Except EErr (List String)
  | [] => .ok []
  | (k, v) :: es =>
    match dump_inline_table cfg fuel v with
    | .error e => .error e
    | .ok val =>
      match inlineParts cfg fuel es with
      | .error e => .error e
      | .ok rest => .ok ((k ++ " = " ++ val) :: rest)
end

mutual
/-- Embedding of `TomlEncoder.dump_sections`.  A dict input runs the entry
    loop (`dsEntries`); mirroring Python's duck typing, an empty string or
    empty list input iterates nothing and returns empty results, a
    non-empty string or list fails with `TypeError` at the first `o[section]`
    subscript (after the key of its first element has been computed), and
    non-iterable values fail with `TypeError` at the `for` itself.  Fuel is
    consumed once per recursive descent. -/
def dump_sections (cfg : Enc) : Nat → PyVal → String → Except EErr (String × List (String × PyVal))
  | 0, _, _ => .error .outOfFuel
  | fuel + 1, PyVal.dict _ es, sup =>
    let supD := if sup ≠ "" ∧ sup.data.getLast? ≠ some '.' then sup ++ "." else sup
    match dsEntries cfg fuel es supD with
    | .error e => .error e
    | .ok (retstr, retdict, arraystr) => .ok (retstr ++ arraystr, retdict)
  | _ + 1, PyVal.str s, _ =>
    match s.data with
    | [] => .ok ("", [])
    | c :: _ =>
      match qsection_of (String.mk [c]) with
      | .error e => .error e
      | .ok _ => .error .typeError
  | _ + 1, PyVal.list xs, _ =>
    match xs with
    | [] => .ok ("", [])
    | a :: _ =>
      match qsection_of (pyStr a) with
      | .error e => .error e
      | .ok _ => .error .typeError
  | _ + 1, _, _ => .error .typeError

/-- Loop body of `dump_sections` over the entries of the dict, returning
    the `(retstr, retdict, arraystr)` accumulators of the source (the
    source appends `arraystr` to `retstr` only after the loop). -/
def dsEntries (cfg : Enc) : Nat → List (String × PyVal) → String → Except EErr (String × List (String × PyVal) × String)
  | _, [], _ => .ok ("", [], "")
  | 0, _ :: _, _ => .error .outOfFuel
  | fuel + 1, (sec, value) :: rest, supD =>
    match qsection_of sec with
    | .error e => .error e
    | .ok qsection =>
      let entry : Except EErr (String × List (String × PyVal) × String) :=
        if ¬ isDictV value then
          match value with
          | PyVal.list xs =>
            if xs.any isDictV then
              match arrayElems cfg fuel xs (supD ++ qsection) with
              | .error e => .error e
              | .ok chunk => .ok ("", [], chunk)
            else
              match dump_value cfg fuel value with
              | .error e => .error e
              | .ok txt => .ok (qsection ++ " = " ++ txt ++ "\n", [], "")
          | PyVal.none => .ok ("", [], "")
          | v =>
            match dump_value cfg fuel v with
            | .error e => .error e
            | .ok txt => .ok (qsection ++ " = " ++ txt ++ "\n", [], "")
        else if cfg.preserve && isInlineV value then
          match dump_inline_table cfg fuel value with
          | .error e => .error e
          | .ok txt => .ok (qsection ++ " = " ++ txt, [], "")
        else
          .ok ("", [(qsection, value)], "")
      match entry with
      | .error e => .error e
      | .ok (r0, d0, a0) =>
        match dsEntries cfg fuel rest supD with
        | .error e => .error e
        | .ok (r1, d1, a1) => .ok (r0 ++ r1, d0 ++ d1, a0 ++ a1)

/-- Array-of-tables emission, one `[[supq]]` header per element of the
    sequence, with the element's own recursive flattening and the inner
    layering loop of the source. -/
def arrayElems (cfg : Enc) : Nat → List PyVal → String → Except EErr String
  | _, [], _ => .ok ""
  | 0, _ :: _, _ => .error .outOfFuel
  | fuel + 1, a :: as, supq =>
    match dump_sections cfg fuel a supq with
    | .error e => .error e
    | .ok (s, d) =>
      let headLb := s.data.head? = some '['
      let sNB := if s ≠ "" ∧ ¬ headLb then s else ""
      let tab0 := "\n" ++ (if s ≠ "" ∧ headLb then s else "")
      match arrayLayers cfg fuel d supq tab0 with
      | .error e => .error e
      | .ok tab =>
        match arrayElems cfg fuel as supq with
        | .error e => .error e
        | .ok restTxt => .ok ("[[" ++ supq ++ "]]\n" ++ sNB ++ tab ++ restTxt)

/-- The `while d:` layering loop inside the array-of-tables branch; fuel is
    consumed once per layer. -/
def arrayLayers (cfg : Enc) : Nat → List (String × PyVal) → String → String → Except EErr String
  | _, [], _, acc => .ok acc
  | 0, _ :: _, _, _ => .error .outOfFuel
  | fuel + 1, d, supq, acc =>
    match layerStep cfg fuel d supq acc with
    | .error e => .error e
    | .ok (acc2, newd) => arrayLayers cfg fuel newd supq acc2

/-- One layer of the `while d:` loop: flatten every deferred sub-table,
    append its `[supq.dsec]` header and text when non-empty, and requalify
    its residual entries into the next layer's work set. -/
def layerStep (cfg : Enc) : Nat → List (String × PyVal) → String → String → Except EErr (String × List (String × PyVal))
  | _, [], _, acc => .ok (acc, [])
  | 0, _ :: _, _, _ => .error .outOfFuel
  | fuel + 1, (dsec, val) :: rest, supq, acc =>
    match dump_sections cfg fuel val (supq ++ "." ++ dsec) with
    | .error e => .error e
    | .ok (s1, d1) =>
      let acc2 := if s1 ≠ "" then acc ++ "[" ++ supq ++ "." ++ dsec ++ "]\n" ++ s1 else acc
      match layerStep cfg fuel rest supq acc2 with
      | .error e => .error e
      | .ok (accF, newdR) =>
        .ok (accF, d1.map (fun p => (dsec ++ "." ++ p.1, p.2)) ++ newdR)
end

/-- Test `retval[-2:] == "\n\n"` of the driver's blank-line suppression (for
    strings shorter than two characters the slice differs from a double
    newline, exactly as in Python). -/
def endsTwoNl (s : String) : Bool :=
  match s.data.reverse with
  | c1 :: c2 :: _ => c1 == '\n' && c2 == '\n'
  | _ => false

/-- Body of one iteration of the `while sections:` loop of `dumps`: for each
    pending section, flatten it, emit the blank line (unless the output is
    empty or already ends in one) and the `[section]` header — but only when
    the section's own text is non-empty or it has no residual sub-tables —
    and requalify the residual entries for the next layer. -/
def driveStep (cfg : Enc) : Nat → List (String × PyVal) → String → Except EErr (String × List (String × PyVal))
  | _, [], retval => .ok (retval, [])
  | 0, _ :: _, _ => .error .outOfFuel
  | fuel + 1, (sec, value) :: rest, retval =>
    match dump_sections cfg fuel value sec with
    | .error e => .error e
    | .ok (addtoretval, addtosections) =>
      let retval2 :=
        if addtoretval ≠ "" ∨ addtosections.isEmpty then
          (if retval ≠ "" ∧ ¬ endsTwoNl retval then retval ++ "\n" else retval)
            ++ "[" ++ sec ++ "]\n" ++ addtoretval
        else retval
      match driveStep cfg fuel rest retval2 with
      | .error e => .error e
      | .ok (retF, nsR) =>
        .ok (retF, addtosections.map (fun p => (sec ++ "." ++ p.1, p.2)) ++ nsR)

/-- The `while sections:` loop of `dumps`; fuel is consumed once per layer.
    The circular-reference check that the source performs at the top of this
    loop compares object identities, which inductive tree values do not
    have; on trees (acyclic, unshared object graphs) the check never fires,
    and it is embedded in the reference-graph model below (`g_dumps`). -/
def driveLoop (cfg : Enc) : Nat → String → List (String × PyVal) → Except EErr String
  | _, retval, [] => .ok retval
  | 0, _, _ :: _ => .error .outOfFuel
  | fuel + 1, retval, sections =>
    match driveStep cfg fuel sections retval with
    | .error e => .error e
    | .ok (retval2, newsections) => driveLoop cfg fuel retval2 newsections

/-- Embedding of `dumps(obj, encoder)` at a given fuel. -/
def dumps_fuel (cfg : Enc) (fuel : Nat) (o : PyVal) : Except EErr String :=
  match dump_sections cfg fuel o "" with
  | .error e => .error e
  | .ok (addtoretval, sections) => driveLoop cfg fuel addtoretval sections

mutual
/-- Size of a value; a strict bound on its nesting depth, used to choose
    sufficient fuel for `dumps`. -/
def pySize : PyVal → Nat
  | .list xs => 1 + pySizeList xs
  | .dict _ es => 1 + pySizeEntries es
  | _ => 1

/-- Size of a list of values. -/
def pySizeList : List PyVal → Nat
  | [] => 0
  | v :: vs => 1 + pySize v + pySizeList vs

/-- Size of a list of entries. -/
def pySizeEntries : List (String × PyVal) → Nat
  | [] => 0
  | (_, v) :: es => 1 + pySize v + pySizeEntries es
end

/-- Embedding of `dumps(obj, encoder)`.  Every loop of the source consumes
    fuel at most once per nesting layer, and `pySize` strictly bounds the
    nesting depth of a tree value, so this fuel never exhausts on tree
    inputs. -/
def dumps (cfg : Enc) (o : PyVal) : Except EErr String :=
  dumps_fuel cfg (pySize o + 1) o

example : dumps defaultEnc (.dict false [("a", .dict false [("b", .int 1), ("c", .int 2)])]) =
    .ok "[a]\nb = 1\nc = 2\n" := by decide
example : dumps defaultEnc (.dict false [("a", .dict false [("b", .dict false [("c", .int 1)])])]) =
    .ok "[a.b]\nc = 1\n" := by decide
example : dumps defaultEnc
    (.dict false [("a", .dict false [("b", .int 1)]), ("c", .dict false [("d", .int 2)])]) =
    .ok "[a]\nb = 1\n\n[c]\nd = 2\n" := by decide
example : dumps defaultEnc
    (.dict false [("arr", .list [.dict false [("x", .int 1)],
      .dict false [("x", .int 2), ("y", .dict false [("z", .int 3)])]])]) =
    .ok "[[arr]]\nx = 1\n\n[[arr]]\nx = 2\n\n[arr.y]\nz = 3\n" := by decide
example : dumps defaultEnc (.dict false [("a", .list [.int 1, .int 2])]) =
    .ok "a = [ 1, 2,]\n" := by decide
example : dumps defaultEnc (.dict false [("root", .dict false [("path", .path "/home/edgy")])]) =
    .ok "[root]\npath = \"/home/edgy\"\n" := by decide
example : dumps defaultEnc
    (.dict false [("facts", .dict false [("localhost", .ipv4 "127.0.0.1")])]) =
    .ok "[facts]\nlocalhost = \"127.0.0.1\"\n" := by decide
example : dumps defaultEnc
    (.dict false [("inventory", .dict false [("hands", .enumVal (.str "apple")),
      ("backpack", .list [.enumVal (.str "apple"), .enumVal (.str "apple"),
        .enumVal (.str "banana")])])]) =
    .ok "[inventory]\nhands = \"apple\"\nbackpack = [ \"apple\", \"apple\", \"banana\",]\n" := by
  decide
example : dumps defaultEnc (.dict false [("k", .list [.int 1, .dict false []])]) =
    .error .typeError := by decide
example : dumps preserveEnc (.dict false [("d", .dict true [("x", .str "abc")])]) =
    .ok "d = \x7b x = \"abc\" \x7d\n" := by decide
example : dumps defaultEnc (.dict false [("d", .dict true [("x", .str "abc")])]) =
    .ok "[d]\nx = \"abc\"\n" := by decide
example : dumps preserveEnc (.dict false [("d", .dict true [("a b", .str "x")])]) =
    .ok "d = \x7b a b = \"x\" \x7d\n" := by decide
example : dumps defaultEnc (.dict false [("a b", .int 1)]) =
    .ok "\"a b\" = 1\n" := by decide

example : dump_str (.str "\\x64") = .ok "\"\\u0064\"" := by decide
example : dump_str (.str "\\\\x64") = .ok "\"\\\\x64\"" := by decide
example : dump_str (.str "\\\\\\x64") = .ok "\"\\\\\\u0064\"" := by decide
example : dump_str (.str "a b") = .ok "\"a b\"" := by decide
example : dump_str (.str "abc") = .ok "\"abc\"" := by decide

/-- Address (object identity, `id(...)`) of a dict object in the
    reference-graph model. -/
abbrev Addr := Nat

/-- Values of the reference-graph embedding of `dumps`, in which a dict is a
    reference to a heap object so that object identity exists and cyclic
    object graphs can be built.  The model is scoped to the container
    structure (dicts and lists), which is all that identity and cycles are
    about; scalar formatting is covered by the tree model above. -/
inductive GVal where
  | list (xs : List GVal)
  | dictRef (a : Addr)
deriving Repr

/-- Heap of dict objects: entries per address, in insertion order. -/
abbrev GStore := List (Addr × List (String × GVal))

/-- Entries of the dict object at an address.  Addresses are total by
    construction of the stores used below. -/
def storeEntries (st : GStore) (a : Addr) : List (String × GVal) :=
  match st.find? (fun p => p.1 = a) with
  | some p => p.2
  | Option.none => []

/-- The graph value is a dict (`isinstance(v, dict)`). -/
def isGDict : GVal → Bool
  | .dictRef _ => true
  | _ => false

/-- Identity of a section value (always a dict reference by construction of
    `retdict`). -/
def refAddr : GVal → Option Addr
  | .dictRef a => some a
  | _ => Option.none

mutual
/-- The `dump_value` of the graph model, for the default encoder.  A list
    dispatches to the list formatter; a dict is caught by the `Iterable`
    capability and the list formatter then iterates its keys. -/
def g_dump_value (st : GStore) : Nat → GVal → Except EErr String
  | 0, _ => .error .outOfFuel
  | fuel + 1, .list xs =>
    match g_listParts st fuel xs with
    | .error e => .error e
    | .ok body => .ok ("[" ++ body ++ "]")
  | fuel + 1, .dictRef a =>
    match g_keyParts fuel ((storeEntries st a).map (fun p => p.1)) with
    | .error e => .error e
    | .ok body => .ok ("[" ++ body ++ "]")

/-- List-formatter loop of the graph model. -/
def g_listParts (st : GStore) : Nat → List GVal → Except EErr String
  | _, [] => .ok ""
  | 0, _ :: _ => .error .outOfFuel
  | fuel + 1, u :: us =>
    match g_dump_value st fuel u with
    | .error e => .error e
    | .ok s =>
      match g_listParts st fuel us with
      | .error e => .error e
      | .ok r => .ok (" " ++ s ++ "," ++ r)

/-- List-formatter loop over the keys of a dict being iterated (the keys
    are strings and dispatch to `_dump_str`). -/
def g_keyParts : Nat → List String → Except EErr String
  | _, [] => .ok ""
  | 0, _ :: _ => .error .outOfFuel
  | fuel + 1, k :: ks =>
    match dump_str (.str k) with
    | .error e => .error e
    | .ok s =>
      match g_keyParts fuel ks with
      | .error e => .error e
      | .ok r => .ok (" " ++ s ++ "," ++ r)
end

mutual
/-- The `dump_sections` of the graph model (default encoder, so the
    inline-table branch of the source is dead and omitted).  A non-empty
    list input fails with `TypeError` at the first `o[section]` subscript,
    as in the tree model; the key computed for its first element is the
    `str()` of a container, which is never bare and whose `_dump_str`
    escape always succeeds, so the subscript error is reached in every
    case. -/
def g_dump_sections (st : GStore) : Nat → GVal → String → Except EErr (String × List (String × GVal))
  | 0, _, _ => .error .outOfFuel
  | fuel + 1, .dictRef a, sup =>
    let supD := if sup ≠ "" ∧ sup.data.getLast? ≠ some '.' then sup ++ "." else sup
    match g_dsEntries st fuel (storeEntries st a) supD with
    | .error e => .error e
    | .ok (retstr, retdict, arraystr) => .ok (retstr ++ arraystr, retdict)
  | _ + 1, .list xs, _ =>
    match xs with
    | [] => .ok ("", [])
    | _ :: _ => .error .typeError

/-- Entry loop of the graph model's `dump_sections`. -/
def g_dsEntries (st : GStore) : Nat → List (String × GVal) → String → Except EErr (String × List (String × GVal) × String)
  | _, [], _ => .ok ("", [], "")
  | 0, _ :: _, _ => .error .outOfFuel
  | fuel + 1, (sec, value) :: rest, supD =>
    match qsection_of sec with
    | .error e => .error e
    | .ok qsection =>
      let entry : Except EErr (String × List (String × GVal) × String) :=
        if ¬ isGDict value then
          match value with
          | GVal.list xs =>
            if xs.any isGDict then
              match g_arrayElems st fuel xs (supD ++ qsection) with
              | .error e => .error e
              | .ok chunk => .ok ("", [], chunk)
            else
              match g_dump_value st fuel value with
              | .error e => .error e
              | .ok txt => .ok (qsection ++ " = " ++ txt ++ "\n", [], "")
          | v =>
            match g_dump_value st fuel v with
            | .error e => .error e
            | .ok txt => .ok (qsection ++ " = " ++ txt ++ "\n", [], "")
        else
          .ok ("", [(qsection, value)], "")
      match entry with
      | .error e => .error e
      | .ok (r0, d0, a0) =>
        match g_dsEntries st fuel rest supD with
        | .error e => .error e
        | .ok (r1, d1, a1) => .ok (r0 ++ r1, d0 ++ d1, a0 ++ a1)

/-- Array-of-tables loop of the graph model. -/
def g_arrayElems (st : GStore) : Nat → List GVal → String → Except EErr String
  | _, [], _ => .ok ""
  | 0, _ :: _, _ => .error .outOfFuel
  | fuel + 1, a :: as, supq =>
    match g_dump_sections st fuel a supq with
    | .error e => .error e
    | .ok (s, d) =>
      let headLb := s.data.head? = some '['
      let sNB := if s ≠ "" ∧ ¬ headLb then s else ""
      let tab0 := "\n" ++ (if s ≠ "" ∧ headLb then s else "")
      match g_arrayLayers st fuel d supq tab0 with
      | .error e => .error e
      | .ok tab =>
        match g_arrayElems st fuel as supq with
        | .error e => .error e
        | .ok restTxt => .ok ("[[" ++ supq ++ "]]\n" ++ sNB ++ tab ++ restTxt)

/-- Inner `while d:` layering loop of the graph model. -/
def g_arrayLayers (st : GStore) : Nat → List (String × GVal) → String → String → Except EErr String
  | _, [], _, acc => .ok acc
  | 0, _ :: _, _, _ => .error .outOfFuel
  | fuel + 1, d, supq, acc =>
    match g_layerStep st fuel d supq acc with
    | .error e => .error e
    | .ok (acc2, newd) => g_arrayLayers st fuel newd supq acc2

/-- One inner layer of the graph model. -/
def g_layerStep (st : GStore) : Nat → List (String × GVal) → String → String → Except EErr (String × List (String × GVal))
  | _, [], _, acc => .ok (acc, [])
  | 0, _ :: _, _, _ => .error .outOfFuel
  | fuel + 1, (dsec, val) :: rest, supq, acc =>
    match g_dump_sections st fuel val (supq ++ "." ++ dsec) with
    | .error e => .error e
    | .ok (s1, d1) =>
      let acc2 := if s1 ≠ "" then acc ++ "[" ++ supq ++ "." ++ dsec ++ "]\n" ++ s1 else acc
      match g_layerStep st fuel rest supq acc2 with
      | .error e => .error e
      | .ok (accF, newdR) =>
        .ok (accF, d1.map (fun p => (dsec ++ "." ++ p.1, p.2)) ++ newdR)
end

/-- One iteration body of the `while sections:` loop in the graph model. -/
def g_driveStep (st : GStore) : Nat → List (String × GVal) → String → Except EErr (String × List (String × GVal))
  | _, [], retval => .ok (retval, [])
  | 0, _ :: _, _ => .error .outOfFuel
  | fuel + 1, (sec, value) :: rest, retval =>
    match g_dump_sections st fuel value sec with
    | .error e => .error e
    | .ok (addtoretval, addtosections) =>
      let retval2 :=
        if addtoretval ≠ "" ∨ addtosections.isEmpty then
          (if retval ≠ "" ∧ ¬ endsTwoNl retval then retval ++ "\n" else retval)
            ++ "[" ++ sec ++ "]\n" ++ addtoretval
        else retval
      match g_driveStep st fuel rest retval2 with
      | .error e => .error e
      | .ok (retF, nsR) =>
        .ok (retF, addtosections.map (fun p => (sec ++ "." ++ p.1, p.2)) ++ nsR)

/-- The `while sections:` loop of `dumps` with its circular-reference
    guard: before expanding a layer, the identities of the pending section
    dicts are compared with the identities collected from all previous
    layers (`outer_objs`), and a match raises
    `ValueError("Circular reference detected")`. -/
def g_driveLoop (st : GStore) : Nat → String → List (String × GVal) → List Addr → Except EErr String
  | _, retval, [], _ => .ok retval
  | 0, _, _ :: _, _ => .error .outOfFuel
  | fuel + 1, retval, sections, outer =>
    let ids := sections.filterMap (fun p => refAddr p.2)
    if outer.any (fun o => ids.contains o) then
      .error (.valueError "Circular reference detected")
    else
      match g_driveStep st fuel sections retval with
      | .error e => .error e
      | .ok (retval2, newsections) => g_driveLoop st fuel retval2 newsections (outer ++ ids)

/-- The `dumps` of the reference-graph model: flatten the root object, then
    run the layering loop with `outer_objs` initialised to the root's
    identity. -/
def g_dumps (st : GStore) (root : Addr) (fuel : Nat) : Except EErr String :=
  match g_dump_sections st fuel (.dictRef root) "" with
  | .error e => .error e
  | .ok (r, secs) => g_driveLoop st fuel r secs [root]

/-- Store of the specification's cycle example: the object `b` at address 0
    with `b["self"] = b`, and `a` at address 1 with `a["b"] = b`. -/
def abStore : GStore := [(0, [("self", .dictRef 0)]), (1, [("b", .dictRef 0)])]

/-- Store of a container that contains itself transitively through a list:
    a dict `l` at address 0 with `l["x"] = [l]`. -/
def lcStore : GStore := [(0, [("x", .list [.dictRef 0])])]

example : g_dumps abStore 0 10 = .error (.valueError "Circular reference detected") := by decide
example : g_dumps abStore 1 10 = .error (.valueError "Circular reference detected") := by decide
example : g_dumps lcStore 0 10 = .error .outOfFuel := by decide
example : g_dumps [(0, [("self", .dictRef 0)]), (1, [("b", .dictRef 0)]), (2, [("c", .dictRef 0)])] 2 10 =
    .error (.valueError "Circular reference detected") := by decide
example : g_dumps [(0, []), (1, [("b", .dictRef 0)])] 1 10 = .ok "[b]\n" := by decide

/-! Helper definitions and lemmas for the theorems below. -/

/-- Plain concatenation of a list of strings (used to state expected
    outputs). -/
def strJoin : List String → String
  | [] => ""
  | s :: l => s ++ strJoin l

/-- Per-element texts of a list value under `dump_value`, with the same fuel
    discipline as `dumpListParts`; used to state the list-formatter
    theorems. -/
def listTexts (cfg : Enc) : Nat → List PyVal → Except EErr (List String)
  | _, [] => .ok []
  | 0, _ :: _ => .error .outOfFuel
  | fuel + 1, u :: us =>
    match dump_value cfg fuel u with
    | .error e => .error e
    | .ok s =>
      match listTexts cfg fuel us with
      | .error e => .error e
      | .ok r => .ok (s :: r)

/-- Expected text of a dict of integer-valued assignments. -/
def flatLines (kvs : List (String × Int)) : String :=
  strJoin (kvs.map fun kv => kv.1 ++ " = " ++ toString kv.2 ++ "\n")

/-- Dict of integer scalars, in the given key order. -/
def intDict (kvs : List (String × Int)) : PyVal :=
  .dict false (kvs.map fun kv => (kv.1, PyVal.int kv.2))

theorem dumpListParts_eq_listTexts (cfg : Enc) :
    ∀ (fuel : Nat) (xs : List PyVal) (ts : List String),
      listTexts cfg fuel xs = .ok ts →
      dumpListParts cfg fuel xs = .ok (strJoin (ts.map fun t => " " ++ t ++ ",")) := by
  intro fuel xs
  induction xs generalizing fuel with
  | nil =>
    intro ts h
    simp [listTexts] at h
    subst h
    simp [dumpListParts, strJoin]
  | cons u us ih =>
    intro ts h
    match fuel with
    | 0 => exact Except.noConfusion h
    | fuel + 1 =>
      simp only [listTexts] at h
      split at h
      · exact Except.noConfusion h
      · rename_i s hv
        split at h
        · exact Except.noConfusion h
        · rename_i r hr
          cases h
          simp only [dumpListParts, hv, ih fuel r hr, List.map_cons, strJoin]

theorem strJoin_frag_ends_comma :
    ∀ (ts : List String) (t : String),
      ∃ w : String, strJoin ((t :: ts).map fun u => " " ++ u ++ ",") = w ++ "," := by
  intro ts
  induction ts with
  | nil =>
    intro t
    exact ⟨" " ++ t, by simp [strJoin]⟩
  | cons t2 rest ih =>
    intro t
    obtain ⟨w, hw⟩ := ih t2
    refine ⟨(" " ++ t ++ ",") ++ w, ?_⟩
    simp only [List.map_cons, strJoin] at hw ⊢
    rw [hw]
    simp [String.append_assoc]

/-- C7: for every value, the dispatcher resolves its formatter by (1)
    exact-type table lookup, (2) the ordered capability list with the first
    satisfied test winning, (3) the string formatter as final fallback —
    `get_dump_function` coincides with `specResolve`, the dispatcher written
    from the specification's words, on every value, and values of
    unregistered non-iterable types (and `None`) fall through to the string
    formatter, so dispatch never aborts. -/
theorem C7_dispatch_resolution :
    (∀ v : PyVal, get_dump_function v = specResolve v) ∧
    (∀ r : String, get_dump_function (.obj r) = .fstr) ∧
    get_dump_function .none = .fstr := by
  refine ⟨fun v => ?_, fun r => rfl, rfl⟩
  cases v <;> rfl

/-- C10: the default list formatter emits `"["` followed, for each element
    in order, by one space, the element's dispatched text, and a comma,
    then `"]"`; the empty sequence renders as exactly `"[]"`, and every
    non-empty sequence's text ends in `",]"`. -/
theorem C10_list_format :
    (∀ (cfg : Enc) (fuel : Nat), dump_list cfg (fuel + 1) (.list []) = .ok "[]") ∧
    (∀ (cfg : Enc) (fuel : Nat) (xs : List PyVal) (ts : List String),
      listTexts cfg fuel xs = .ok ts →
      dump_list cfg (fuel + 1) (.list xs) =
        .ok ("[" ++ strJoin (ts.map fun t => " " ++ t ++ ",") ++ "]")) ∧
    (∀ (cfg : Enc) (fuel : Nat) (u : PyVal) (us : List PyVal) (ts : List String),
      listTexts cfg fuel (u :: us) = .ok ts →
      ∃ w : String, dump_list cfg (fuel + 1) (.list (u :: us)) = .ok (w ++ ",]")) := by
  refine ⟨fun cfg fuel => ?_, fun cfg fuel xs ts h => ?_, fun cfg fuel u us ts h => ?_⟩
  · simp [dump_list, iterElems, dumpListParts]
  · simp only [dump_list, iterElems, dumpListParts_eq_listTexts cfg fuel xs ts h]
  · have hts : ∃ t ts2, ts = t :: ts2 := by
      match fuel with
      | 0 => exact Except.noConfusion h
      | fuel + 1 =>
        simp only [listTexts] at h
        split at h
        · exact Except.noConfusion h
        · rename_i s hv
          split at h
          · exact Except.noConfusion h
          · rename_i r hr
            cases h
            exact ⟨s, r, rfl⟩
    obtain ⟨t, ts2, rfl⟩ := hts
    obtain ⟨w, hw⟩ := strJoin_frag_ends_comma ts2 t
    refine ⟨"[" ++ w, ?_⟩
    simp only [dump_list, iterElems, dumpListParts_eq_listTexts cfg fuel (u :: us) (t :: ts2) h]
    rw [hw, String.append_assoc, String.append_assoc]
    rfl

/-- Witness for C10 at a concrete list. -/
theorem C10_list_format_witness :
    dump_list defaultEnc 4 (.list [.int 1, .int 2]) =
      .ok ("[" ++ strJoin (["1", "2"].map fun t => " " ++ t ++ ",") ++ "]") ∧
    (∃ w : String, dump_list defaultEnc 4 (.list [.int 1, .int 2]) = .ok (w ++ ",]")) ∧
    dump_list defaultEnc 4 (.list [.int 1, .int 2]) = .ok "[ 1, 2,]" := by
  refine ⟨C10_list_format.2.1 defaultEnc 3 [.int 1, .int 2] ["1", "2"] (by decide),
    C10_list_format.2.2 defaultEnc 3 (.int 1) [.int 2] ["1", "2"] (by decide), by decide⟩

/-! Backslash parity of the `_dump_str` joiner (claim C1). -/

/-- Length of the trailing backslash run of a string (the consecutive
    backslashes scanned backward from the split point). -/
def trailBs (s : String) : Nat :=
  (s.data.reverse.takeWhile (fun c => c == bsC)).length

theorem flipWalk_cons_ne (c : Char) (rest : List Char) (jx : Bool) (h : ¬ c = bsC) :
    flipWalk (c :: rest) jx = jx := by
  cases rest with
  | nil => rfl
  | cons c2 r => simp [flipWalk, h]

theorem flipWalk_bs_cons (tail : List Char) (jx : Bool) (h : tail ≠ []) :
    flipWalk (bsC :: tail) jx = flipWalk tail (!jx) := by
  match tail with
  | c2 :: rest => simp [flipWalk]

theorem flipWalk_all_bs : ∀ (k : Nat) (jx : Bool),
    flipWalk (List.replicate (k + 1) bsC) jx = if k % 2 = 1 then !jx else jx := by
  intro k
  induction k with
  | zero => intro jx; simp [flipWalk, List.replicate]
  | succ k ih =>
    intro jx
    have hsh : List.replicate (k + 2) bsC = bsC :: List.replicate (k + 1) bsC := rfl
    rw [hsh, flipWalk_bs_cons _ _ (by simp), ih]
    rcases Nat.mod_two_eq_zero_or_one k with h | h
    · have h2 : (k + 1) % 2 = 1 := by omega
      simp [h, h2]
    · have h2 : (k + 1) % 2 = 0 := by omega
      simp [h, h2]

theorem flipWalk_bounded : ∀ (k : Nat) (c : Char) (cs : List Char) (jx : Bool), ¬ c = bsC →
    flipWalk (List.replicate k bsC ++ c :: cs) jx = if k % 2 = 1 then !jx else jx := by
  intro k
  induction k with
  | zero => intro c cs jx h; simp [flipWalk_cons_ne c cs jx h]
  | succ k ih =>
    intro c cs jx h
    have hsh : List.replicate (k + 1) bsC ++ c :: cs = bsC :: (List.replicate k bsC ++ c :: cs) := rfl
    rw [hsh, flipWalk_bs_cons _ _ (by simp), ih c cs (!jx) h]
    rcases Nat.mod_two_eq_zero_or_one k with h2 | h2
    · have h3 : (k + 1) % 2 = 1 := by omega
      simp [h2, h3]
    · have h3 : (k + 1) % 2 = 0 := by omega
      simp [h2, h3]

theorem dropWhile_head_not (p : Char → Bool) :
    ∀ (l : List Char) (c : Char) (cs : List Char), l.dropWhile p = c :: cs → p c = false := by
  intro l
  induction l with
  | nil => intro c cs h; cases h
  | cons a l ih =>
    intro c cs h
    by_cases hp : p a
    · rw [List.dropWhile_cons_of_pos hp] at h
      exact ih c cs h
    · rw [List.dropWhile_cons_of_neg hp] at h
      cases h
      exact Bool.of_not_eq_true hp

theorem takeWhile_bs_replicate (l : List Char) :
    l.takeWhile (fun c => c == bsC) = List.replicate (l.takeWhile (fun c => c == bsC)).length bsC := by
  apply List.eq_replicate_length.mpr
  intro b hb
  have := List.mem_takeWhile_imp hb
  exact eq_of_beq this

/-- The parity rule actually implemented by `_dump_str`'s loop: for a
    non-empty collapsed prefix with `r` trailing backslashes, the joiner is
    the literal `"x"` exactly when `r = 0`, or `r` is odd and the prefix has
    a non-backslash before the run, or the prefix consists entirely of
    backslashes and has even length; in all other cases the escape is
    rewritten with the `"u00"` joiner. -/
theorem pyJoinx_eq_of (v0 : String) (c : Char) (rest : List Char)
    (hr : v0.data.reverse = c :: rest) :
    pyJoinx v0 = flipWalk (c :: rest) (decide (¬ c = bsC)) := by
  unfold pyJoinx
  rw [hr]

theorem pyJoinx_spec (v0 : String) (h : v0.data ≠ []) :
    pyJoinx v0 = true ↔
      (trailBs v0 = 0 ∨
       (0 < trailBs v0 ∧ trailBs v0 < v0.data.length ∧ trailBs v0 % 2 = 1) ∨
       (trailBs v0 = v0.data.length ∧ v0.data.length % 2 = 0)) := by
  have hds : v0.data.reverse.takeWhile (fun c => c == bsC) ++
      v0.data.reverse.dropWhile (fun c => c == bsC) = v0.data.reverse :=
    List.takeWhile_append_dropWhile (fun c => c == bsC) v0.data.reverse
  have hk : trailBs v0 = (v0.data.reverse.takeWhile (fun c => c == bsC)).length := rfl
  have hlen : v0.data.length = v0.data.reverse.length := (List.length_reverse _).symm
  have hrep := takeWhile_bs_replicate v0.data.reverse
  have hrne : v0.data.reverse ≠ [] := by
    intro hcon
    exact h (by simpa using congrArg List.reverse hcon)
  cases hdrop : v0.data.reverse.dropWhile (fun c => c == bsC) with
  | nil =>
    -- the whole reversed string is the backslash run
    have hall : v0.data.reverse = List.replicate (trailBs v0) bsC := by
      rw [hk, ← hrep]
      rw [hdrop, List.append_nil] at hds
      exact hds.symm
    have hkl : trailBs v0 = v0.data.length := by
      rw [hlen, hall]
      simp
    cases hkpos : trailBs v0 with
    | zero =>
      exfalso
      rw [hkpos] at hall
      exact hrne (by simpa using hall)
    | succ k =>
      have hrv : v0.data.reverse = bsC :: List.replicate k bsC := by
        rw [hall, hkpos]
        rfl
      have hjx : pyJoinx v0 = flipWalk (List.replicate (k + 1) bsC) false := by
        rw [pyJoinx_eq_of v0 bsC (List.replicate k bsC) hrv]
        simp [List.replicate_succ]
      rw [hjx, flipWalk_all_bs]
      constructor
      · intro ht
        right; right
        refine ⟨by omega, ?_⟩
        by_cases hp : k % 2 = 1
        · omega
        · simp [hp] at ht
      · intro hd
        rcases hd with h0 | ⟨hpos, hlt, hodd⟩ | ⟨heq, hev⟩
        · omega
        · omega
        · have hp : k % 2 = 1 := by omega
          simp [hp]
  | cons c cs =>
    have hcne : ¬ c = bsC := by
      have := dropWhile_head_not (fun c => c == bsC) v0.data.reverse c cs hdrop
      intro hcon
      rw [hcon] at this
      simp at this
    have hshape : v0.data.reverse = List.replicate (trailBs v0) bsC ++ c :: cs := by
      rw [hk, ← hrep, ← hdrop]
      exact hds.symm
    have hklt : trailBs v0 < v0.data.length := by
      rw [hlen, hshape]
      simp [hk]
    cases hkpos : trailBs v0 with
    | zero =>
      have hr0 : v0.data.reverse = c :: cs := by
        rw [hshape, hkpos]
        rfl
      have hjx : pyJoinx v0 = true := by
        rw [pyJoinx_eq_of v0 c cs hr0, flipWalk_cons_ne c cs _ hcne]
        simp [hcne]
      rw [hjx]
      simp
    | succ k =>
      have hrv : v0.data.reverse = bsC :: (List.replicate k bsC ++ c :: cs) := by
        rw [hshape, hkpos]
        rfl
      have hjx : pyJoinx v0 = flipWalk (List.replicate (k + 1) bsC ++ c :: cs) false := by
        rw [pyJoinx_eq_of v0 bsC (List.replicate k bsC ++ c :: cs) hrv]
        simp [List.replicate_succ]
      rw [hjx, flipWalk_bounded (k + 1) c cs false hcne]
      rw [hkpos] at hklt
      constructor
      · intro ht
        right; left
        refine ⟨by omega, by omega, ?_⟩
        by_cases hp : (k + 1) % 2 = 1
        · exact hp
        · simp [hp] at ht
      · intro hd
        rcases hd with h0 | ⟨hpos2, hlt2, hodd⟩ | ⟨heq, hev⟩
        · omega
        · simp [hodd]
        · omega

/-- C1 counterexample: the claim's worked example is wrong on the code.
    Rendering the mapping with key `a` and value the four-character string
    backslash-x-6-4 does not produce the literal re-emission
    `a = "\\x64"` (two backslashes); it produces the Unicode rewrite
    `a = "\u0064"`, exactly as the source's own regression test
    `test_bug_148` asserts. -/
theorem C1_counterexample :
    dumps defaultEnc (.dict false [("a", .str "\\x64")]) = .ok "a = \"\\u0064\"\n" ∧
    dumps defaultEnc (.dict false [("a", .str "\\x64")]) ≠ .ok "a = \"\\\\x64\"\n" :=
  ⟨by decide, by decide⟩

/-- C1, amended: rendering `a` mapped to backslash-x64 yields
    `a = "\u0064"`, with two leading backslashes it yields `a = "\\x64"`,
    and with three it yields `a = "\\\u0064"` (the outcomes of
    `test_bug_148`); in general the joiner at a `\x` split point is decided
    by the parity rule of `pyJoinx_spec`: after collapsing doubled
    backslashes in the prefix, a run of `r` trailing backslashes re-emits a
    literal `x` when `r = 0`, when `r` is odd and bounded by a
    non-backslash, or when the prefix is all backslashes of even length,
    and rewrites the escape to `\u00NN` otherwise. -/
theorem C1_escape_parity :
    dumps defaultEnc (.dict false [("a", .str "\\x64")]) = .ok "a = \"\\u0064\"\n" ∧
    dumps defaultEnc (.dict false [("a", .str "\\\\x64")]) = .ok "a = \"\\\\x64\"\n" ∧
    dumps defaultEnc (.dict false [("a", .str "\\\\\\x64")]) = .ok "a = \"\\\\\\u0064\"\n" ∧
    (∀ v0 : String, v0.data ≠ [] →
      (pyJoiner v0 = "x" ↔
        (trailBs v0 = 0 ∨
         (0 < trailBs v0 ∧ trailBs v0 < v0.data.length ∧ trailBs v0 % 2 = 1) ∨
         (trailBs v0 = v0.data.length ∧ v0.data.length % 2 = 0)))) := by
  refine ⟨by decide, by decide, by decide, fun v0 h => ?_⟩
  rw [← pyJoinx_spec v0 h]
  unfold pyJoiner
  constructor
  · intro hj
    by_cases hx : pyJoinx v0
    · exact hx
    · simp [hx] at hj
  · intro hx
    simp [hx]

/-- Witness for C1's parity rule at the two-backslash prefix (the collapsed
    prefix of the second `test_bug_148` example): all backslashes, even
    length, so the literal `x` is re-emitted. -/
theorem C1_escape_parity_witness :
    ("\\\\" : String).data ≠ [] ∧
    (pyJoiner "\\\\" = "x" ↔
      (trailBs "\\\\" = 0 ∨
       (0 < trailBs "\\\\" ∧ trailBs "\\\\" < ("\\\\" : String).data.length ∧ trailBs "\\\\" % 2 = 1) ∨
       (trailBs "\\\\" = ("\\\\" : String).data.length ∧ ("\\\\" : String).data.length % 2 = 0))) ∧
    pyJoiner "\\\\" = "x" :=
  ⟨by decide, C1_escape_parity.2.2.2 "\\\\" (by decide), by decide⟩

/-! Separator validation of `TomlArraySeparatorEncoder` (claim C8). -/

/-- The value takes the plain-scalar branch of `dump_sections`' entry loop:
    it is not a dict (not deferred), not a list (no array-of-tables test)
    and not `None` (not omitted). -/
def scalarV : PyVal → Bool
  | .dict _ _ => false
  | .list _ => false
  | .none => false
  | _ => true

theorem append_ne_empty_left (s t : String) (h : s.data ≠ []) : s ++ t ≠ "" := by
  intro hc
  have hdata : (s ++ t).data = ("" : String).data := congrArg String.data hc
  rw [String.data_append] at hdata
  exact h (List.append_eq_nil.mp hdata).1

/-- Entry loop on scalar entries: one `qkey = text` line per entry, in
    order, no residual, no array text.  Each entry is paired with its
    expected emitted key and value text; the value-text hypothesis is
    fuel-insensitive because scalar formatters never recurse. -/
theorem dsEntries_scalars (cfg : Enc) :
    ∀ (es : List ((String × PyVal) × (String × String))) (sup : String) (fuel : Nat),
      (∀ p ∈ es, qsection_of p.1.1 = .ok p.2.1) →
      (∀ p ∈ es, scalarV p.1.2 = true) →
      (∀ p ∈ es, ∀ f : Nat, dump_value cfg (f + 1) p.1.2 = .ok p.2.2) →
      es.length + 1 ≤ fuel →
      dsEntries cfg fuel (es.map (·.1)) sup =
        .ok (strJoin (es.map fun p => p.2.1 ++ " = " ++ p.2.2 ++ "\n"), [], "") := by
  intro es
  induction es with
  | nil =>
    intro sup fuel hq hs hv hf
    simp [dsEntries, strJoin]
  | cons p rest ih =>
    intro sup fuel hq hs hv hf
    obtain ⟨⟨k, value⟩, q, t⟩ := p
    match fuel, hf with
    | m + 1, hf2 =>
      have hm : rest.length + 1 ≤ m := by
        simp only [List.length_cons] at hf2
        omega
      have hm1 : 1 ≤ m := by omega
      obtain ⟨f, rfl⟩ := Nat.exists_eq_add_of_le hm1
      have hqk : qsection_of k = .ok q := hq ((k, value), q, t) (List.mem_cons_self _ _)
      have hsk : scalarV value = true := hs ((k, value), q, t) (List.mem_cons_self _ _)
      have hvk : dump_value cfg (f + 1) value = .ok t :=
        hv ((k, value), q, t) (List.mem_cons_self _ _) f
      have hrest := ih sup (1 + f) (fun p hp => hq p (List.mem_cons_of_mem _ hp))
        (fun p hp => hs p (List.mem_cons_of_mem _ hp))
        (fun p hp => hv p (List.mem_cons_of_mem _ hp)) hm
      rw [Nat.add_comm 1 f] at hrest ⊢
      cases value with
      | dict i es2 => exact Bool.noConfusion hsk
      | list xs => exact Bool.noConfusion hsk
      | none => exact Bool.noConfusion hsk
      | str s =>
        simp [List.map_cons, dsEntries, hqk, isDictV, hvk, hrest, strJoin]
      | int n =>
        simp [List.map_cons, dsEntries, hqk, isDictV, hvk, hrest, strJoin]
      | bool b =>
        simp [List.map_cons, dsEntries, hqk, isDictV, hvk, hrest, strJoin]
      | path s =>
        simp [List.map_cons, dsEntries, hqk, isDictV, hvk, hrest, strJoin]
      | enumVal v2 =>
        simp [List.map_cons, dsEntries, hqk, isDictV, hvk, hrest, strJoin]
      | ipv4 s =>
        simp [List.map_cons, dsEntries, hqk, isDictV, hvk, hrest, strJoin]
      | obj r =>
        simp [List.map_cons, dsEntries, hqk, isDictV, hvk, hrest, strJoin]

/-- `dump_sections` on a dict of scalar entries. -/
theorem dump_sections_scalars (cfg : Enc)
    (es : List ((String × PyVal) × (String × String))) (sup : String) (fuel : Nat)
    (hq : ∀ p ∈ es, qsection_of p.1.1 = .ok p.2.1)
    (hs : ∀ p ∈ es, scalarV p.1.2 = true)
    (hv : ∀ p ∈ es, ∀ f : Nat, dump_value cfg (f + 1) p.1.2 = .ok p.2.2)
    (hf : es.length + 2 ≤ fuel) :
    dump_sections cfg fuel (.dict false (es.map (·.1))) sup =
      .ok (strJoin (es.map fun p => p.2.1 ++ " = " ++ p.2.2 ++ "\n"), []) := by
  match fuel, hf with
  | m + 1, _ =>
    have hm : es.length + 1 ≤ m := by omega
    simp only [dump_sections, dsEntries_scalars cfg es _ m hq hs hv hm, String.append_empty]

/-- `dumps` on a dict of scalar entries: exactly the assignment lines, in
    entry order. -/
theorem dumps_scalars (cfg : Enc)
    (es : List ((String × PyVal) × (String × String))) (fuel : Nat)
    (hq : ∀ p ∈ es, qsection_of p.1.1 = .ok p.2.1)
    (hs : ∀ p ∈ es, scalarV p.1.2 = true)
    (hv : ∀ p ∈ es, ∀ f : Nat, dump_value cfg (f + 1) p.1.2 = .ok p.2.2)
    (hf : es.length + 2 ≤ fuel) :
    dumps_fuel cfg fuel (.dict false (es.map (·.1))) =
      .ok (strJoin (es.map fun p => p.2.1 ++ " = " ++ p.2.2 ++ "\n")) := by
  simp only [dumps_fuel, dump_sections_scalars cfg es "" fuel hq hs hv hf, driveLoop]

/-- C4 counterexample: under the inline-preserving encoder, the inline
    table body emits its key `"a b"` verbatim — neither bare (it contains a
    space) nor escaped by the string formatter (the quoted form does not
    occur in the output), contradicting the claim that every emitted key is
    bare or quoted. -/
theorem C4_counterexample :
    dumps preserveEnc (.dict false [("d", .dict true [("a b", .str "x")])]) =
      .ok "d = \x7b a b = \"x\" \x7d\n" ∧
    pyBare "a b" = false ∧
    ¬ ("\"a b\"" : String).data <:+: ("d = \x7b a b = \"x\" \x7d\n" : String).data :=
  ⟨by decide, by decide, by decide⟩

/-- C4, amended: every key emitted by `dump_sections` (assignments and the
    section names that become headers) is either a bare key or the
    `_dump_str` escape of the key — the key `"a b"` is emitted as
    `"a b" = 1`; inline-table bodies, however, emit their keys verbatim
    without this quoting (see the counterexample). -/
theorem C4_key_quoting :
    (∀ (cfg : Enc) (k q : String) (n : Int) (fuel : Nat),
      qsection_of k = .ok q → 3 ≤ fuel →
      dumps_fuel cfg fuel (.dict false [(k, .int n)]) =
        .ok (q ++ " = " ++ toString n ++ "\n")) ∧
    (∀ k : String, pyBare k = true → qsection_of k = .ok k) ∧
    (∀ k : String, pyBare k = false → qsection_of k = dump_str (.str k)) ∧
    qsection_of "a b" = .ok "\"a b\"" ∧
    dumps defaultEnc (.dict false [("a b", .int 1)]) = .ok "\"a b\" = 1\n" := by
  refine ⟨fun cfg k q n fuel hq hf => ?_, fun k h => by simp [qsection_of, h],
    fun k h => by simp [qsection_of, h], by decide, by decide⟩
  have h := dumps_scalars cfg [((k, PyVal.int n), (q, toString n))] fuel
    (by intro p hp; simp only [List.mem_singleton] at hp; subst hp; exact hq)
    (by intro p hp; simp only [List.mem_singleton] at hp; subst hp; rfl)
    (by intro p hp f; simp only [List.mem_singleton] at hp; subst hp; rfl)
    (by simpa using hf)
  simpa [strJoin] using h

/-- Witness for C4 at the quoted key of the specification's example. -/
theorem C4_key_quoting_witness :
    qsection_of "a b" = .ok "\"a b\"" ∧
    dumps_fuel defaultEnc 3 (.dict false [("a b", .int 1)]) = .ok "\"a b\" = 1\n" := by
  constructor
  · decide
  · rw [C4_key_quoting.1 defaultEnc "a b" "\"a b\"" 1 3 (by decide) (by decide)]
    decide

/-- C9: the same mapping tagged with the inline-table marker renders as the
    one-line `d = { x = ... }` construct at its parent's level under the
    inline-preserving variant, and as a separate `[d]` header block under
    the default variant. -/
theorem C9_inline_toggle (s q : String) (fuel : Nat) (hq : dump_str (.str s) = .ok q) :
    dumps_fuel preserveEnc (fuel + 3) (.dict false [("d", .dict true [("x", .str s)])]) =
      .ok ("d = \x7b x = " ++ q ++ " \x7d\n") ∧
    dumps_fuel defaultEnc (fuel + 5) (.dict false [("d", .dict true [("x", .str s)])]) =
      .ok ("[d]\nx = " ++ q ++ "\n") := by
  have hd : qsection_of "d" = Except.ok "d" := by decide
  have hx : qsection_of "x" = Except.ok "x" := by decide
  constructor
  · simp [dumps_fuel, dump_sections, dsEntries, hd, isDictV, isInlineV,
      preserveEnc, dump_inline_table, inlineParts, dump_value, get_dump_function, typeOf,
      typeLookup, dump_by_type, instanceLoop, dump_by_instance, hq, joinCommaSep, driveLoop,
      String.append_assoc]
    try rfl
  · simp [dumps_fuel, dump_sections, dsEntries, hd, hx, isDictV, isInlineV,
      defaultEnc, dump_value, get_dump_function, typeOf, typeLookup, dump_by_type,
      instanceLoop, dump_by_instance, hq, driveLoop, driveStep, endsTwoNl,
      String.append_assoc]
    try rfl

/-- Witness for C9 at the specification's example value. -/
theorem C9_inline_toggle_witness :
    dumps_fuel preserveEnc 3 (.dict false [("d", .dict true [("x", .str "abc")])]) =
      .ok "d = \x7b x = \"abc\" \x7d\n" ∧
    dumps_fuel defaultEnc 5 (.dict false [("d", .dict true [("x", .str "abc")])]) =
      .ok "[d]\nx = \"abc\"\n" :=
  ⟨((C9_inline_toggle "abc" "\"abc\"" 0 (by decide)).1).trans (by decide),
   ((C9_inline_toggle "abc" "\"abc\"" 0 (by decide)).2).trans (by decide)⟩

/-! Array-of-tables results (claim C5). -/

theorem pyBare_head (k : String) (hb : pyBare k = true) :
    ∃ c cs, k.data = c :: cs ∧ isBareChar c = true := by
  unfold pyBare at hb
  cases hd : k.data with
  | nil =>
    rw [hd] at hb
    simp at hb
  | cons c cs =>
    rw [hd] at hb
    simp only [Bool.and_eq_true, decide_eq_true_eq] at hb
    refine ⟨c, cs, rfl, ?_⟩
    split at hb
    · cases cs with
      | nil => simp at hb
      | cons c2 cs2 =>
        have h2 := hb.2
        rw [show (c :: c2 :: cs2).dropLast = c :: (c2 :: cs2).dropLast from rfl] at h2
        simp [List.all_cons] at h2
        exact h2.1
    · have h2 := hb.2
      simp [List.all_cons] at h2
      exact h2.1

theorem bareChar_ne_lb (c : Char) (hc : isBareChar c = true) : ¬ c = '[' := by
  intro hcon
  subst hcon
  revert hc
  decide

theorem flatLines_cons_props (k : String) (v : Int) (rest : List (String × Int))
    (hb : pyBare k = true) :
    flatLines ((k, v) :: rest) ≠ "" ∧
    (flatLines ((k, v) :: rest)).data.head? ≠ some '[' := by
  obtain ⟨c, cs, hd, hc⟩ := pyBare_head k hb
  unfold flatLines strJoin
  constructor
  · apply append_ne_empty_left
    simp [String.data_append, hd]
  · simp only [List.map_cons]
    show ((k ++ " = " ++ toString v ++ "\n") ++
      strJoin (rest.map fun kv => kv.1 ++ " = " ++ toString kv.2 ++ "\n")).data.head? ≠ some '['
    simp only [String.data_append, hd, List.cons_append, List.head?_cons]
    intro hcon
    cases hcon
    exact absurd hc (by decide)

/-- `dump_sections` on a dict of bare-keyed integer scalars. -/
theorem dump_sections_intDict (cfg : Enc) (kvs : List (String × Int)) (sup : String)
    (fuel : Nat) (hb : ∀ kv ∈ kvs, pyBare kv.1 = true) (hf : kvs.length + 2 ≤ fuel) :
    dump_sections cfg fuel (intDict kvs) sup = .ok (flatLines kvs, []) := by
  have h := dump_sections_scalars cfg
    (kvs.map fun kv => ((kv.1, PyVal.int kv.2), (kv.1, toString kv.2))) sup fuel
    (by
      intro p hp
      simp only [List.mem_map] at hp
      obtain ⟨kv, hkv, rfl⟩ := hp
      simp [qsection_of, hb kv hkv])
    (by
      intro p hp
      simp only [List.mem_map] at hp
      obtain ⟨kv, hkv, rfl⟩ := hp
      rfl)
    (by
      intro p hp f
      simp only [List.mem_map] at hp
      obtain ⟨kv, hkv, rfl⟩ := hp
      rfl)
    (by simpa using hf)
  simpa [intDict, flatLines, List.map_map, Function.comp] using h

/-- Fuel bound for the array-of-tables loop over flat elements. -/
def arrFuel : List (List (String × Int)) → Nat
  | [] => 0
  | kvs :: rest => kvs.length + 3 + arrFuel rest

theorem arrayElems_flat (cfg : Enc) :
    ∀ (ds : List (List (String × Int))) (supq : String) (fuel : Nat),
      (∀ kvs ∈ ds, ∀ kv ∈ kvs, pyBare kv.1 = true) →
      arrFuel ds + 1 ≤ fuel →
      arrayElems cfg fuel (ds.map intDict) supq =
        .ok (strJoin (ds.map fun kvs => "[[" ++ supq ++ "]]\n" ++ flatLines kvs ++ "\n")) := by
  intro ds
  induction ds with
  | nil =>
    intro supq fuel hb hf
    simp [arrayElems, strJoin]
  | cons kvs rest ih =>
    intro supq fuel hb hf
    match fuel, hf with
    | m + 1, hf2 =>
      have hmb : kvs.length + 2 ≤ m := by
        unfold arrFuel at hf2
        omega
      have hmr : arrFuel rest + 1 ≤ m := by
        unfold arrFuel at hf2
        omega
      have hsect := dump_sections_intDict cfg kvs supq m (hb kvs (List.mem_cons_self _ _)) hmb
      have hrest := ih supq m (fun d hd => hb d (List.mem_cons_of_mem _ hd)) hmr
      cases kvs with
      | nil =>
        simp only [List.map_cons, arrayElems, hsect, hrest, arrayLayers]
        simp [flatLines, strJoin, String.append_assoc]
      | cons kv kvr =>
        obtain ⟨hne, hhd⟩ :=
          flatLines_cons_props kv.1 kv.2 kvr (hb _ (List.mem_cons_self _ _) kv (List.mem_cons_self _ _))
        simp only [List.map_cons, arrayElems, hsect, arrayLayers, hrest]
        rw [if_pos ⟨hne, by simpa using hhd⟩, if_neg (by simpa using fun h1 => hhd)]
        simp [String.append_assoc, strJoin]

theorem append_ne_empty_right (s t : String) (h : t.data ≠ []) : s ++ t ≠ "" := by
  intro hc
  have hdata : (s ++ t).data = ("" : String).data := congrArg String.data hc
  rw [String.data_append] at hdata
  exact h (List.append_eq_nil.mp hdata).2

theorem endsTwoNl_append (x y : String) (h2 : 2 ≤ y.data.length) :
    endsTwoNl (x ++ y) = endsTwoNl y := by
  match hrv : y.data.reverse with
  | [] =>
    have : y.data.length = 0 := by
      have := congrArg List.length hrv
      simpa using this
    omega
  | [c] =>
    have : y.data.length = 1 := by
      have := congrArg List.length hrv
      simpa using this
    omega
  | c1 :: c2 :: rest =>
    unfold endsTwoNl
    rw [String.data_append, List.reverse_append, hrv]
    rfl

/-- Expected text of the driver layer over flat sections: one blank line
    (suppressed when the output so far is empty) and a `[name]` header per
    section, followed by the section's own text. -/
def sectionFold : String → List ((String × PyVal) × String) → String
  | acc, [] => acc
  | acc, (p, body) :: rest =>
    sectionFold ((if acc = "" then acc else acc ++ "\n") ++ "[" ++ p.1 ++ "]\n" ++ body) rest

/-- Root entry loop on dict-valued entries: everything is deferred into the
    residual map, keyed by the emitted section name, in order. -/
theorem dsEntries_defer (cfg : Enc) :
    ∀ (es : List (String × PyVal)) (sup : String) (fuel : Nat),
      (∀ p ∈ es, pyBare p.1 = true) →
      (∀ p ∈ es, ∃ ies, p.2 = PyVal.dict false ies) →
      es.length ≤ fuel →
      dsEntries cfg fuel es sup = .ok ("", es, "") := by
  intro es
  induction es with
  | nil =>
    intro sup fuel hb hd hf
    simp [dsEntries]
  | cons p rest ih =>
    intro sup fuel hb hd hf
    obtain ⟨k, value⟩ := p
    match fuel, hf with
    | m + 1, hf2 =>
      have hqk : qsection_of k = .ok k := by
        simp [qsection_of, hb (k, value) (List.mem_cons_self _ _)]
      obtain ⟨ies, rfl⟩ := hd (k, value) (List.mem_cons_self _ _)
      have hrest := ih sup m (fun p hp => hb p (List.mem_cons_of_mem _ hp))
        (fun p hp => hd p (List.mem_cons_of_mem _ hp)) (by simp at hf2; omega)
      simp [dsEntries, hqk, isDictV, isInlineV, hrest]

theorem driveStep_sections (cfg : Enc) :
    ∀ (es : List ((String × PyVal) × String)) (retval : String) (mf fuel : Nat),
      (∀ p ∈ es, ∀ f : Nat, mf ≤ f → dump_sections cfg f p.1.2 p.1.1 = .ok (p.2, [])) →
      (∀ p ∈ es, 2 ≤ p.2.data.length ∧ endsTwoNl p.2 = false) →
      (retval = "" ∨ (retval ≠ "" ∧ endsTwoNl retval = false)) →
      mf + es.length ≤ fuel →
      driveStep cfg fuel (es.map (·.1)) retval = .ok (sectionFold retval es, []) := by
  intro es
  induction es with
  | nil =>
    intro retval mf fuel hsec hbody hret hf
    simp [driveStep, sectionFold]
  | cons p rest ih =>
    intro retval mf fuel hsec hbody hret hf
    obtain ⟨⟨sec, value⟩, body⟩ := p
    match fuel, hf with
    | m + 1, hf2 =>
      have hmf : mf ≤ m := by
        simp at hf2
        omega
      have hsect := hsec ((sec, value), body) (List.mem_cons_self _ _) m hmf
      obtain ⟨hlen, hb2⟩ := hbody ((sec, value), body) (List.mem_cons_self _ _)
      have hlen2 : 2 ≤ body.data.length := hlen
      have hb2b : endsTwoNl body = false := hb2
      have hbne : body ≠ "" := by
        intro hc
        rw [hc] at hlen2
        simp at hlen2
      have hcond : body ≠ "" ∨ ([] : List (String × PyVal)).isEmpty = true := Or.inl hbne
      have hretval2eq :
          (if retval ≠ "" ∧ ¬ endsTwoNl retval = true then retval ++ "\n" else retval) =
            (if retval = "" then retval else retval ++ "\n") := by
        rcases hret with h | ⟨h1, h2⟩
        · subst h
          simp
        · rw [if_pos ⟨h1, by simp [h2]⟩, if_neg (by simpa using h1)]
      have hnext : ((if retval = "" then retval else retval ++ "\n") ++ "[" ++ sec ++ "]\n" ++ body) = "" ∨
          (((if retval = "" then retval else retval ++ "\n") ++ "[" ++ sec ++ "]\n" ++ body) ≠ "" ∧
            endsTwoNl ((if retval = "" then retval else retval ++ "\n") ++ "[" ++ sec ++ "]\n" ++ body) = false) := by
        right
        constructor
        · apply append_ne_empty_right
          intro hc
          have hz : body.data.length = 0 := by rw [hc]; rfl
          omega
        · rw [endsTwoNl_append _ body hlen2]
          exact hb2b
      have hrest := ih ((if retval = "" then retval else retval ++ "\n") ++ "[" ++ sec ++ "]\n" ++ body)
        mf m (fun p hp => hsec p (List.mem_cons_of_mem _ hp))
        (fun p hp => hbody p (List.mem_cons_of_mem _ hp)) hnext
        (by simp only [List.length_cons] at hf2; omega)
      simp only [List.map_cons, driveStep, hsect, hcond, hretval2eq, hrest, sectionFold]
      simp [hbne]
      rw [hrest]

/-- C6 counterexample: the driver does not emit a `[qualified.key]` header
    for every residual entry — an intermediate table whose own text is
    empty and whose residual is non-empty is skipped entirely: rendering
    `{"a": {"b": {"c": 1}}}` yields only the `[a.b]` header and no `[a]`
    header. -/
theorem C6_counterexample :
    dumps defaultEnc (.dict false [("a", .dict false [("b", .dict false [("c", .int 1)])])]) =
      .ok "[a.b]\nc = 1\n" ∧
    ¬ ("[a]\n" : String).data <:+: ("[a.b]\nc = 1\n" : String).data :=
  ⟨by decide, by decide⟩

/-- C6, amended: the driver repeatedly takes the residual map and, for every
    residual entry, emits one blank line — suppressed when the output so far
    is empty or already ends in a blank line — and a `[qualified.key]`
    header followed by the entry's own text, but only when that text is
    non-empty or the entry has no residual sub-tables; entries with empty
    text and non-empty residual emit no header and only fold their
    residuals, requalified with the dotted prefix, into the next layer
    (second conjunct).  The first conjunct proves the layer formula
    `sectionFold` for any root whose entries all flatten to non-empty
    section texts. -/
theorem C6_driver_layers :
    (∀ (cfg : Enc) (es : List ((String × PyVal) × String)) (mf fuel : Nat),
      (∀ p ∈ es, pyBare p.1.1 = true) →
      (∀ p ∈ es, ∃ ies, p.1.2 = PyVal.dict false ies) →
      (∀ p ∈ es, ∀ f : Nat, mf ≤ f → dump_sections cfg f p.1.2 p.1.1 = .ok (p.2, [])) →
      (∀ p ∈ es, 2 ≤ p.2.data.length ∧ endsTwoNl p.2 = false) →
      mf + es.length + 2 ≤ fuel →
      dumps_fuel cfg fuel (.dict false (es.map (fun p => p.1))) = .ok (sectionFold "" es)) ∧
    dumps defaultEnc (.dict false [("a", .dict false [("b", .dict false [("c", .int 1)])])]) =
      .ok "[a.b]\nc = 1\n" := by
  refine ⟨fun cfg es mf fuel hb hd hsec hbody hf => ?_, by decide⟩
  match fuel, hf with
  | m + 1, hf2 =>
    have hdef := dsEntries_defer cfg (es.map (fun p => p.1)) "" m
      (by
        intro p hp
        simp only [List.mem_map] at hp
        obtain ⟨p0, hp0, rfl⟩ := hp
        exact hb p0 hp0)
      (by
        intro p hp
        simp only [List.mem_map] at hp
        obtain ⟨p0, hp0, rfl⟩ := hp
        exact hd p0 hp0)
      (by simp; omega)
    have hstep := driveStep_sections cfg es "" mf m hsec hbody (Or.inl rfl)
      (by omega)
    have hds : dump_sections cfg (m + 1) (PyVal.dict false (es.map (fun p => p.1))) "" =
        Except.ok ("", es.map (fun p => p.1)) := by
      simp [dump_sections, hdef]
    cases es with
    | nil =>
      simp only [List.map_nil] at hds
      simp [dumps_fuel, hds, driveLoop, sectionFold]
    | cons p rest =>
      simp only [List.map_cons] at hds hstep
      simp only [dumps_fuel, hds, List.map_cons, driveLoop, hstep]

/-- C6 witness: the layer formula instantiated at two flat integer sections
    renders two bracketed blocks separated by one blank line. -/
theorem C6_driver_layers_witness :
    dumps_fuel defaultEnc 7
        (.dict false [("a", .dict false [("b", .int 1)]), ("c", .dict false [("d", .int 2)])]) =
      .ok "[a]\nb = 1\n\n[c]\nd = 2\n" := by
  have h := C6_driver_layers.1 defaultEnc
    [(("a", PyVal.dict false [("b", PyVal.int 1)]), "b = 1\n"),
     (("c", PyVal.dict false [("d", PyVal.int 2)]), "d = 2\n")] 3 7
    (by decide)
    (by
      intro p hp
      simp only [List.mem_cons, List.not_mem_nil, or_false] at hp
      rcases hp with rfl | rfl
      · exact ⟨[("b", PyVal.int 1)], rfl⟩
      · exact ⟨[("d", PyVal.int 2)], rfl⟩)
    (by
      intro p hp f hfk
      simp only [List.mem_cons, List.not_mem_nil, or_false] at hp
      rcases hp with rfl | rfl
      · exact (dump_sections_intDict defaultEnc [("b", 1)] "a" f (by decide)
            (by simp only [List.length_cons, List.length_nil]; omega)).trans
          (by rw [show flatLines [("b", (1 : Int))] = "b = 1\n" from by decide])
      · exact (dump_sections_intDict defaultEnc [("d", 2)] "c" f (by decide)
            (by simp only [List.length_cons, List.length_nil]; omega)).trans
          (by rw [show flatLines [("d", (2 : Int))] = "d = 2\n" from by decide]))
    (by decide) (by decide)
  exact h.trans (by decide)

/-- A cycle reached through a list element is invisible to the driver's
    identity guard: flattening the dict `l` with `l["x"] = [l]` recurses
    through the array-of-tables branch at every fuel and never terminates
    (the embedding returns `outOfFuel` for every fuel; the source hits
    Python's recursion limit). -/
theorem g_dump_sections_lc :
    ∀ (n : Nat) (sup : String),
      g_dump_sections lcStore n (.dictRef 0) sup = .error .outOfFuel := by
  intro n
  induction n using Nat.strong_induction_on with
  | _ n ih =>
    match n, ih with
    | 0, _ => intro sup; rfl
    | 1, _ => intro sup; rfl
    | 2, _ => intro sup; rfl
    | j + 3, ih =>
      intro sup
      have hj := ih j (by omega)
      have hse : storeEntries lcStore 0 = [("x", GVal.list [GVal.dictRef 0])] := rfl
      have hq : qsection_of "x" = Except.ok "x" := by decide
      simp [g_dump_sections, g_dsEntries, g_arrayElems, hse, hq, isGDict, hj]

/-- C2 counterexample: the dict `l` at address 0 of `lcStore` contains
    itself transitively (through the list `l["x"] = [l]`), yet rendering it
    never fails with the circular-reference `ValueError` at any fuel — the
    identity guard only inspects dict values deferred into the residual
    map, and a dict reached through a list element bypasses it. -/
theorem C2_counterexample :
    ¬ ∃ n : Nat, g_dumps lcStore 0 n = .error (.valueError "Circular reference detected") := by
  rintro ⟨n, hn⟩
  rw [show g_dumps lcStore 0 n =
        match g_dump_sections lcStore n (.dictRef 0) "" with
        | .error e => .error e
        | .ok (r, secs) => g_driveLoop lcStore n r secs [0] from rfl,
      g_dump_sections_lc n ""] at hn
  exact EErr.noConfusion (Except.error.inj hn)

/-- C2, amended: a cycle that runs only through dicts deferred into the
    residual map is detected — rendering either object of the
    specification's example (`b["self"] = b`; `a["b"] = b`, modelled by
    `abStore`) fails with the circular-reference `ValueError` at every
    sufficient fuel, and the error construction returns no partial text.
    But the guard does not cover every transitively self-containing
    container: a cycle through a list element (`lcStore`) is never
    detected — rendering diverges (`outOfFuel` at every fuel, a
    `RecursionError` in the source) instead of raising the `ValueError`. -/
theorem C2_cycle_guard :
    (∀ n : Nat, g_dumps abStore 1 (n + 4) = .error (.valueError "Circular reference detected")) ∧
    (∀ n : Nat, g_dumps abStore 0 (n + 2) = .error (.valueError "Circular reference detected")) ∧
    (∀ n : Nat, g_dumps lcStore 0 n = .error .outOfFuel) := by
  have hq : qsection_of "self" = Except.ok "self" := by decide
  have hqb : qsection_of "b" = Except.ok "b" := by decide
  have hse0 : storeEntries abStore 0 = [("self", GVal.dictRef 0)] := rfl
  have hse1 : storeEntries abStore 1 = [("b", GVal.dictRef 0)] := rfl
  refine ⟨fun n => ?_, fun n => ?_, fun n => ?_⟩
  · simp [g_dumps, g_dump_sections, g_dsEntries, g_driveStep, g_driveLoop,
      hse0, hse1, hq, hqb, isGDict, refAddr, endsTwoNl]
  · simp [g_dumps, g_dump_sections, g_dsEntries, g_driveLoop,
      hse0, hq, isGDict, refAddr]
  rw [show g_dumps lcStore 0 n =
        match g_dump_sections lcStore n (.dictRef 0) "" with
        | .error e => .error e
        | .ok (r, secs) => g_driveLoop lcStore n r secs [0] from rfl,
      g_dump_sections_lc n ""]

/-! Order-preservation results (claim C3).  One mapping level mixes scalar
    entries (emitted as assignment lines) with table entries (deferred as
    sections); the slot list records, per entry in insertion order, which
    of the two it is and what it emits. -/

/-- Outcome of one entry of a mapping level: a scalar entry emits an
    assignment line; a table entry is deferred under its emitted section
    key with its flattened body. -/
inductive RSlot where
  | line (s : String)
  | sect (q : String) (v : PyVal) (body : String)

/-- The assignment lines of a slotted entry list, in entry order. -/
def rsLines : List ((String × PyVal) × RSlot) → List String
  | [] => []
  | (_, RSlot.line s) :: r => s :: rsLines r
  | (_, RSlot.sect _ _ _) :: r => rsLines r

/-- The deferred sections of a slotted entry list, in entry order, each
    with its flattened body. -/
def rsSects : List ((String × PyVal) × RSlot) → List ((String × PyVal) × String)
  | [] => []
  | (_, RSlot.line _) :: r => rsSects r
  | (_, RSlot.sect q v b) :: r => ((q, v), b) :: rsSects r

theorem rsSects_length_le :
    ∀ ps : List ((String × PyVal) × RSlot), (rsSects ps).length ≤ ps.length := by
  intro ps
  induction ps with
  | nil => simp [rsSects]
  | cons p rest ih =>
    obtain ⟨kv, slot⟩ := p
    cases slot with
    | line s =>
      simp only [rsSects, List.length_cons]
      omega
    | sect q v b =>
      simp only [rsSects, List.length_cons]
      omega

/-- Entry loop on a mixed level: the assignment lines are concatenated in
    entry order and the deferred sections are collected in entry order —
    no reordering in either component. -/
theorem dsEntries_mixed (cfg : Enc) :
    ∀ (ps : List ((String × PyVal) × RSlot)) (sup : String) (fuel : Nat),
      (∀ p ∈ ps, ∀ s, p.2 = RSlot.line s →
        ∃ q t, qsection_of p.1.1 = .ok q ∧ scalarV p.1.2 = true ∧
          (∀ f : Nat, dump_value cfg (f + 1) p.1.2 = .ok t) ∧
          s = q ++ " = " ++ t ++ "\n") →
      (∀ p ∈ ps, ∀ q v b, p.2 = RSlot.sect q v b →
        qsection_of p.1.1 = .ok q ∧ p.1.2 = v ∧ ∃ ies, v = PyVal.dict false ies) →
      ps.length + 1 ≤ fuel →
      dsEntries cfg fuel (ps.map (·.1)) sup =
        .ok (strJoin (rsLines ps), (rsSects ps).map (·.1), "") := by
  intro ps
  induction ps with
  | nil =>
    intro sup fuel hl hs hf
    simp [dsEntries, rsLines, rsSects, strJoin]
  | cons p rest ih =>
    intro sup fuel hl hs hf
    obtain ⟨⟨k, value⟩, slot⟩ := p
    match fuel, hf with
    | m + 1, hf2 =>
      have hm : rest.length + 1 ≤ m := by
        simp only [List.length_cons] at hf2
        omega
      cases slot with
      | line s =>
        obtain ⟨q, t, hqk, hsv, hvt, hseq⟩ :=
          hl ((k, value), RSlot.line s) (List.mem_cons_self _ _) s rfl
        have hm1 : 1 ≤ m := by omega
        obtain ⟨f, rfl⟩ := Nat.exists_eq_add_of_le hm1
        have hvk : dump_value cfg (f + 1) value = .ok t := hvt f
        have hrest := ih sup (1 + f) (fun p hp s2 hps => hl p (List.mem_cons_of_mem _ hp) s2 hps)
          (fun p hp q2 v2 b2 hps => hs p (List.mem_cons_of_mem _ hp) q2 v2 b2 hps) hm
        rw [Nat.add_comm 1 f] at hrest ⊢
        subst hseq
        cases value with
        | dict i es2 => exact Bool.noConfusion hsv
        | list xs => exact Bool.noConfusion hsv
        | none => exact Bool.noConfusion hsv
        | str s2 =>
          simp [List.map_cons, dsEntries, hqk, isDictV, hvk, hrest, rsLines, rsSects, strJoin]
        | int n =>
          simp [List.map_cons, dsEntries, hqk, isDictV, hvk, hrest, rsLines, rsSects, strJoin]
        | bool b2 =>
          simp [List.map_cons, dsEntries, hqk, isDictV, hvk, hrest, rsLines, rsSects, strJoin]
        | path s2 =>
          simp [List.map_cons, dsEntries, hqk, isDictV, hvk, hrest, rsLines, rsSects, strJoin]
        | enumVal v2 =>
          simp [List.map_cons, dsEntries, hqk, isDictV, hvk, hrest, rsLines, rsSects, strJoin]
        | ipv4 s2 =>
          simp [List.map_cons, dsEntries, hqk, isDictV, hvk, hrest, rsLines, rsSects, strJoin]
        | obj r =>
          simp [List.map_cons, dsEntries, hqk, isDictV, hvk, hrest, rsLines, rsSects, strJoin]
      | sect q v b =>
        obtain ⟨hqk, hveq, ies, hies⟩ :=
          hs ((k, value), RSlot.sect q v b) (List.mem_cons_self _ _) q v b rfl
        have hrest := ih sup m (fun p hp s2 hps => hl p (List.mem_cons_of_mem _ hp) s2 hps)
          (fun p hp q2 v2 b2 hps => hs p (List.mem_cons_of_mem _ hp) q2 v2 b2 hps) hm
        have hveq2 : value = v := hveq
        subst hveq2
        subst hies
        simp [List.map_cons, dsEntries, hqk, isDictV, isInlineV, hrest, rsLines, rsSects]

/-- C3: the encoder preserves insertion order at every level and never
    reorders or sorts keys.  First conjunct: on a level mixing scalar
    entries (any scalar value kind, bare or quoted key) with table
    entries, the rendered output is the assignment lines in entry order
    followed by one `[section]` block per deferred table in entry order
    (`sectionFold`).  Second conjunct: the elements of an array of tables
    keep their sequence order, one `[[key]]` block per element in order.
    Third conjunct: a concrete two-level mapping with keys inserted in
    order `[c, a b, b]` at the root and `[c, a, b]` in the nested table
    emits every line in exactly those orders. -/
theorem C3_key_order :
    (∀ (cfg : Enc) (ps : List ((String × PyVal) × RSlot)) (mf fuel : Nat),
      (∀ p ∈ ps, ∀ s, p.2 = RSlot.line s →
        ∃ q t, qsection_of p.1.1 = .ok q ∧ scalarV p.1.2 = true ∧
          (∀ f : Nat, dump_value cfg (f + 1) p.1.2 = .ok t) ∧
          s = q ++ " = " ++ t ++ "\n") →
      (∀ p ∈ ps, ∀ q v b, p.2 = RSlot.sect q v b →
        qsection_of p.1.1 = .ok q ∧ p.1.2 = v ∧ ∃ ies, v = PyVal.dict false ies) →
      (∀ t ∈ rsSects ps, ∀ f : Nat, mf ≤ f → dump_sections cfg f t.1.2 t.1.1 = .ok (t.2, [])) →
      (∀ t ∈ rsSects ps, 2 ≤ t.2.data.length ∧ endsTwoNl t.2 = false) →
      (strJoin (rsLines ps) = "" ∨
        (strJoin (rsLines ps) ≠ "" ∧ endsTwoNl (strJoin (rsLines ps)) = false)) →
      mf + ps.length + 2 ≤ fuel →
      dumps_fuel cfg fuel (.dict false (ps.map (·.1))) =
        .ok (sectionFold (strJoin (rsLines ps)) (rsSects ps))) ∧
    (∀ (cfg : Enc) (k : String) (ds : List (List (String × Int))) (fuel : Nat),
      pyBare k = true → ds ≠ [] →
      (∀ kvs ∈ ds, ∀ kv ∈ kvs, pyBare kv.1 = true) →
      arrFuel ds + 3 ≤ fuel →
      dumps_fuel cfg fuel (.dict false [(k, .list (ds.map intDict))]) =
        .ok (strJoin (ds.map fun kvs => "[[" ++ k ++ "]]\n" ++ flatLines kvs ++ "\n"))) ∧
    dumps defaultEnc (.dict false
      [("c", .str "s"), ("a b", .bool true),
       ("b", .dict false [("c", .int 1), ("a", .list [.int 1]), ("b", .int 2)])]) =
      .ok "c = \"s\"\n\"a b\" = true\n\n[b]\nc = 1\na = [ 1,]\nb = 2\n" := by
  refine ⟨fun cfg ps mf fuel hline hsect hsec hbody hret hf => ?_,
    fun cfg k ds fuel hbk hne hb hf => ?_, by decide⟩
  · match fuel, hf with
    | m + 1, hf2 =>
      have hmix := dsEntries_mixed cfg ps "" m hline hsect (by omega)
      have hlen := rsSects_length_le ps
      have hstep := driveStep_sections cfg (rsSects ps) (strJoin (rsLines ps)) mf m
        hsec hbody hret (by omega)
      have hds : dump_sections cfg (m + 1) (PyVal.dict false (ps.map (·.1))) "" =
          Except.ok (strJoin (rsLines ps), (rsSects ps).map (·.1)) := by
        simp [dump_sections, hmix]
      cases hsp : rsSects ps with
      | nil =>
        rw [hsp] at hds
        simp only [List.map_nil] at hds
        simp [dumps_fuel, hds, driveLoop, sectionFold]
      | cons t0 rest =>
        rw [hsp] at hds hstep
        simp only [List.map_cons] at hds hstep
        simp only [dumps_fuel, hds, List.map_cons, driveLoop, hstep]
  · match fuel, hf with
    | m + 1, hf2 =>
      match m, hf2 with
      | m2 + 1, hf3 =>
        have hqk : qsection_of k = .ok k := by simp [qsection_of, hbk]
        have hany : (ds.map intDict).any isDictV = true := by
          cases ds with
          | nil => exact absurd rfl hne
          | cons d0 rest => simp [intDict, isDictV]
        have harr := arrayElems_flat cfg ds k m2 hb (by omega)
        simp only [dumps_fuel, dump_sections, dsEntries, hqk, isDictV, hany, harr, driveLoop]
        simp [harr, driveLoop, String.append_assoc]

/-- Witness for C3: a mixed level with keys in order `[c, a b, b]` — a
    string scalar, a quoted-key boolean scalar, then a table — emits its
    two lines then the `[b]` block in that order; and an array of tables
    with element keys `[c, a, b]` keeps that element order. -/
theorem C3_key_order_witness :
    dumps_fuel defaultEnc 8 (.dict false
      [("c", .str "v"), ("a b", .bool true), ("b", .dict false [("x", .int 1)])]) =
      .ok "c = \"v\"\n\"a b\" = true\n\n[b]\nx = 1\n" ∧
    dumps_fuel defaultEnc 15 (.dict false [("arr",
      .list ([[("c", (1 : Int))], [("a", (2 : Int))], [("b", (3 : Int))]].map intDict))]) =
      .ok "[[arr]]\nc = 1\n\n[[arr]]\na = 2\n\n[[arr]]\nb = 3\n\n" := by
  constructor
  · have h := C3_key_order.1 defaultEnc
      [(("c", PyVal.str "v"), RSlot.line "c = \"v\"\n"),
       (("a b", PyVal.bool true), RSlot.line "\"a b\" = true\n"),
       (("b", PyVal.dict false [("x", PyVal.int 1)]),
        RSlot.sect "b" (PyVal.dict false [("x", PyVal.int 1)]) "x = 1\n")] 3 8
      (by
        intro p hp s hps
        simp only [List.mem_cons, List.not_mem_nil, or_false] at hp
        rcases hp with rfl | rfl | rfl
        · refine ⟨"c", "\"v\"", by decide, by decide, fun f => rfl, ?_⟩
          cases hps
          decide
        · refine ⟨"\"a b\"", "true", by decide, by decide, fun f => rfl, ?_⟩
          cases hps
          decide
        · exact RSlot.noConfusion hps)
      (by
        intro p hp q v b hps
        simp only [List.mem_cons, List.not_mem_nil, or_false] at hp
        rcases hp with rfl | rfl | rfl
        · exact RSlot.noConfusion hps
        · exact RSlot.noConfusion hps
        · cases hps
          exact ⟨by decide, rfl, ⟨[("x", PyVal.int 1)], rfl⟩⟩)
      (by
        intro t ht f hfk
        simp only [rsSects, List.mem_cons, List.not_mem_nil, or_false] at ht
        rcases ht with rfl
        exact (dump_sections_intDict defaultEnc [("x", 1)] "b" f (by decide)
          (by simp only [List.length_cons, List.length_nil]; omega)).trans
          (by rw [show flatLines [("x", (1 : Int))] = "x = 1\n" from by decide]))
      (by
        intro t ht
        simp only [rsSects, List.mem_cons, List.not_mem_nil, or_false] at ht
        rcases ht with rfl
        exact ⟨by decide, by decide⟩)
      (Or.inr ⟨by decide, by decide⟩)
      (by decide)
    exact h.trans (by decide)
  · have h := C3_key_order.2.1 defaultEnc "arr" [[("c", 1)], [("a", 2)], [("b", 3)]] 15
      (by decide) (by decide) (by decide) (by decide)
    exact h.trans (by decide)
